import Mathlib

/-!
Verification of the flamelens flamegraph data model and view engine.

The Rust sources (src/flame.rs, src/state.rs, src/view.rs, src/app.rs) are
shallowly embedded below.  Strings are modelled as `List Char` with byte/char
indices as `Nat` (the inputs of interest are ASCII, where Rust's byte indices
and char positions coincide).  Machine integers (`u64`, `usize`, `u16`) are
modelled as `Nat`; the one place where an unsigned subtraction can underflow
(`level_offset -= 1` in `to_parent_stack`) is modelled explicitly by a
checked subtraction returning `none`.  Fallible operations (Rust `unwrap`,
indexing that can panic, and recursions whose termination depends on the
tree being well formed) return `Option`; `none` models a panic or
divergence of the Rust code.  `f64` arithmetic (width factors, zoom
factors) is modelled exactly by unnormalised fractions of naturals
(`Frac`): the Rust code only multiplies and divides nonnegative values, and
all claims proved about these quantities are claims about the ideal real
values the floating-point code approximates.
-/

/-- `listModify l i f` is Rust's `l[i] = f(l[i])` / `get_mut` pattern: it
replaces the `i`-th element when it exists and is the identity otherwise
(call sites below only use it with `i` in bounds, matching the Rust code). -/
def listModify {α : Type} : List α → Nat → (α → α) → List α
  | [], _, _ => []
  | a :: as, 0, f => f a :: as
  | a :: as, i + 1, f => a :: listModify as i f

/-- Characters of a Rust slice `&s[a..b]` (for `List Char` contents). -/
def sliceCL (s : List Char) (a b : Nat) : List Char :=
  (s.take b).drop a

/-- Abbreviation turning a string literal into the `List Char` model. -/
def cl (s : String) : List Char :=
  s.toList

/-- Splits the content into its newline-terminated lines, pairing each line
with the index of its first character; characters after the last newline are
not visited.  This models the loop over `'\n'` positions in
`FlameGraph::from_string` (src/flame.rs), where `last_line_index` is the
start of the current line. -/
def lineChunksAux : List Char → Nat → List Char → List (Nat × List Char)
  | [], _, _ => []
  | c :: rest, start, acc =>
    if c = '\n' then
      (start, acc) :: lineChunksAux rest (start + acc.length + 1) []
    else
      lineChunksAux rest start (acc ++ [c])

def lineChunks (s : List Char) : List (Nat × List Char) :=
  lineChunksAux s 0 []

/-- The `(start_index, end_index)` pairs of the `;`-separated segments of a
path, as absolute indices starting at `base`; the final segment is always
included.  This models the loop over `';'` positions in
`FlameGraph::from_string` together with the trailing `update_one` call. -/
def segChunksAux : List Char → Nat → Nat → List (Nat × Nat)
  | [], segStart, cur => [(segStart, cur)]
  | c :: rest, segStart, cur =>
    if c = ';' then
      (segStart, cur) :: segChunksAux rest (cur + 1) (cur + 1)
    else
      segChunksAux rest segStart (cur + 1)

def segChunks (path : List Char) (base : Nat) : List (Nat × Nat) :=
  segChunksAux path base base

/-- Rust's `str::rsplit_once(' ')`: splits at the last space, if any. -/
def rsplitSp : List Char → Option (List Char × List Char)
  | [] => none
  | c :: rest =>
    match rsplitSp rest with
    | some (l, r) => some (c :: l, r)
    | none => if c = ' ' then some ([], rest) else none

/-- Rust's `str::parse::<u64>()`: an optional leading `'+'`, then one or
more ASCII digits, rejecting values exceeding `u64::MAX`. -/
def parseU64 (s : List Char) : Option Nat :=
  let ds := match s with
    | '+' :: rest => rest
    | _ => s
  if ds = [] then none
  else if ds.all (fun c => c.isDigit) then
    let n := ds.foldl (fun acc c => acc * 10 + (c.toNat - 48)) 0
    if n < 2 ^ 64 then some n else none
  else none

/-- The per-line parse of `FlameGraph::from_string`: split at the last
space, parse the count, and reject an empty path, exactly in the order the
Rust code checks them. -/
def parseLine (line : List Char) : Option (List Char × Nat) :=
  match rsplitSp line with
  | some (l, cnt) =>
    match parseU64 cnt with
    | some c => if l = [] then none else some (l, c)
    | none => none
  | none => none

/-- An unnormalised fraction `num / den` of naturals, modelling the exact
value of the nonnegative `f64` quantities (`width_factor`, `zoom_factor`)
computed by the Rust code.  A zero denominator models the division-by-zero
corner (`+inf` for a positive numerator, NaN for `0/0`). -/
structure Frac where
  num : Nat
  den : Nat
deriving Repr, DecidableEq

def Frac.mul (a b : Frac) : Frac :=
  ⟨a.num * b.num, a.den * b.den⟩

def Frac.ofNat (n : Nat) : Frac :=
  ⟨n, 1⟩

/-- The rational value denoted by a `Frac` (0 when the denominator is 0,
matching Lean's division convention; the claims only evaluate this on
well-defined fractions or exhibit the degenerate case explicitly). -/
def Frac.toRat (f : Frac) : ℚ :=
  (f.num : ℚ) / (f.den : ℚ)

/-- Models the `f64` comparison `x >= 1.0` for the exact value: with a zero
denominator, a positive numerator is `+inf` (true) and `0/0` is NaN
(false). -/
def Frac.geOne (f : Frac) : Bool :=
  if f.den = 0 then decide (0 < f.num) else decide (f.den ≤ f.num)

/-- `StackInfo` from src/flame.rs.  `width_factor` is the exact value of
the `f64` field. -/
structure StackInfo where
  id : Nat
  line_index : Nat
  start_index : Nat
  end_index : Nat
  total_count : Nat
  self_count : Nat
  parent : Option Nat
  children : List Nat
  level : Nat
  width_factor : Frac
  hit : Bool
deriving Repr, DecidableEq

def ROOT : List Char := cl "all"

def ROOT_ID : Nat := 0

/-- `SearchPattern` from src/flame.rs.  The compiled `regex::Regex` is an
external collaborator; it is modelled by its matching function `m`. -/
structure SearchPattern where
  pattern : List Char
  is_regex : Bool
  m : List Char → Bool
  is_manual : Bool

/-- `SearchPattern::new`.  For `is_regex` the external regex compiler is
abstracted as `compile` (returning `none` exactly when `regex::Regex::new`
fails); for a non-regex pattern the Rust code compiles the anchored escaped
pattern `^literal$`, whose matching function is exact string equality, and
that compilation never fails. -/
def SearchPattern.new (compile : List Char → Option (List Char → Bool))
    (pattern : List Char) (is_regex : Bool) (is_manual : Bool) :
    Option SearchPattern :=
  if is_regex then
    (compile pattern).map (fun f => ⟨pattern, is_regex, f, is_manual⟩)
  else
    some ⟨pattern, is_regex, fun s => s == pattern, is_manual⟩

structure Hits where
  coverage_count : Nat
  ids : List Nat
deriving Repr, DecidableEq

/-- Modelled from the spec: the RankedTable (`OrderedStacks` with its
`SortColumn`) is referenced by src/view.rs but its definition is not among
the provided sources.  Per §3/§4.3 of the spec it keeps per-name aggregate
rows with a sort-column preference toggling between total and own counts;
only the sort-column preference and the row count are relevant to the
claims. -/
inductive SortColumn
  | Total
  | Own
deriving Repr, DecidableEq

/-- Modelled from the spec: see `SortColumn`. -/
structure OrderedStacks where
  sorted_column : SortColumn
  num_rows : Nat
deriving Repr, DecidableEq

/-- Modelled from the spec: setting the sort-column preference. -/
def OrderedStacks.set_sort_column (o : OrderedStacks) (c : SortColumn) :
    OrderedStacks :=
  ⟨c, o.num_rows⟩

/-- `FlameGraph` from src/flame.rs (the `ordered_stacks` table is modelled
from the spec, see `OrderedStacks`). -/
structure FlameGraph where
  data : List Char
  stacks' : List StackInfo
  levels : List (List Nat)
  hits : Option Hits
  sorted : Bool
  ordered_stacks : OrderedStacks

namespace FlameGraph

/-- `FlameGraph::update_one` (src/flame.rs).  `none` models the `unwrap`
panics on a missing parent or child entry. -/
def update_one (stacks' : List StackInfo) (content : List Char) (count : Nat)
    (line_index start_index end_index parent_id level : Nat) (is_self : Bool) :
    Option (List StackInfo × Nat) :=
  let short_name := sliceCL content start_index end_index
  match stacks'.get? parent_id with
  | none => none
  | some parent_stack =>
    match findChild stacks' content short_name parent_stack.children with
    | none => none
    | some found =>
      let (stacks1, stack_id) :=
        match found with
        | some sid => (stacks', sid)
        | none =>
          let newInfo : StackInfo :=
            { id := stacks'.length, line_index := line_index,
              start_index := start_index, end_index := end_index,
              total_count := 0, self_count := 0, width_factor := ⟨0, 1⟩,
              parent := some parent_id, children := [], level := level,
              hit := false }
          let stacks2 := stacks' ++ [newInfo]
          let sid := stacks2.length - 1
          (listModify stacks2 parent_id
            (fun p => { p with children := p.children ++ [sid] }), sid)
      match stacks1.get? stack_id with
      | none => none
      | some _ =>
        some (listModify stacks1 stack_id
          (fun i => { i with
            total_count := i.total_count + count,
            self_count := i.self_count + (if is_self then count else 0) }),
          stack_id)
where
  /-- The linear scan of the parent's children for a child whose short name
  (slice of the content) matches; the outer `none` models the `unwrap`
  panic on a dangling child index. -/
  findChild (stacks' : List StackInfo) (content : List Char)
      (short_name : List Char) : List Nat → Option (Option Nat)
    | [] => some none
    | cid :: rest =>
      match stacks'.get? cid with
      | none => none
      | some child =>
        if sliceCL content child.start_index child.end_index = short_name then
          some (some cid)
        else
          findChild stacks' content short_name rest

/-- The walk over one accepted line's segments in `FlameGraph::from_string`:
every traversed node's total is bumped, only the final segment's self count. -/
def processSegs (content : List Char) (count : Nat) (line_index : Nat) :
    List (Nat × Nat) → List StackInfo → Nat → Nat → Option (List StackInfo)
  | [], stacks', _, _ => some stacks'
  | [(a, b)], stacks', parent_id, level =>
    (update_one stacks' content count line_index a b parent_id level true).map
      (fun r => r.1)
  | (a, b) :: rest, stacks', parent_id, level =>
    match update_one stacks' content count line_index a b parent_id level false with
    | none => none
    | some (stacks1, sid) => processSegs content count line_index rest stacks1 sid (level + 1)

/-- The main line loop of `FlameGraph::from_string`: malformed lines and
lines starting with `'#'` are skipped; for an accepted line the root total
is bumped and the segments are walked. -/
def processLines (content : List Char) :
    List (Nat × List Char) → List StackInfo → Option (List StackInfo)
  | [], stacks' => some stacks'
  | (pos, line) :: rest, stacks' =>
    match parseLine line with
    | none => processLines content rest stacks'
    | some (path, count) =>
      if line.head? = some '#' then processLines content rest stacks'
      else
        let stacks0 := listModify stacks' ROOT_ID
          (fun r => { r with total_count := r.total_count + count })
        match processSegs content count pos (segChunks path pos) stacks0 ROOT_ID 1 with
        | none => none
        | some stacks1 => processLines content rest stacks1

/-- The root node pushed first by `FlameGraph::from_string`. -/
def rootInfo : StackInfo :=
  { id := ROOT_ID, line_index := 0, start_index := 0, end_index := 0,
    total_count := 0, self_count := 0, parent := none, children := [],
    level := 0, width_factor := ⟨0, 1⟩, hit := false }

/-- `content.push('\n')` normalisation at the top of `from_string`. -/
def normalizeNL (s : List Char) : List Char :=
  if s.getLast? = some '\n' then s else s ++ ['\n']

/-- The parsing phase of `FlameGraph::from_string`: the normalised content
together with the stack arena before `populate_levels` runs. -/
def from_string_stacks (content0 : List Char) :
    Option (List Char × List StackInfo) :=
  let content := normalizeNL content0
  (processLines content (lineChunks content) [rootInfo]).map
    (fun stacks' => (content, stacks'))

/-- The key of the `sort_by_key` call in `populate_levels`:
`stacks'.get(child_id).map(total_count).unwrap_or(0)`. -/
def keyTotal (stacks' : List StackInfo) (cid : Nat) : Nat :=
  ((stacks'.get? cid).map (fun s => s.total_count)).getD 0

/-- Insertion step of a stable ascending sort by key (equal keys keep their
original relative order); models Rust's stable `slice::sort_by_key`. -/
def insertAscBy (key : Nat → Nat) (x : Nat) : List Nat → List Nat
  | [] => [x]
  | y :: ys => if key y < key x then y :: insertAscBy key x ys else x :: y :: ys

/-- Stable ascending sort by key; extensionally equal to Rust's stable
`slice::sort_by_key` with this key. -/
def sortByKeyAsc (key : Nat → Nat) : List Nat → List Nat
  | [] => []
  | x :: xs => insertAscBy key x (sortByKeyAsc key xs)

/-- The child-reordering performed by `populate_levels` when `sorted` is
set: a stable ascending `sort_by_key` by total count followed by
`Vec::reverse`. -/
def sortIf (sorted : Bool) (stacks' : List StackInfo) (cs : List Nat) :
    List Nat :=
  if sorted then (sortByKeyAsc (keyTotal stacks') cs).reverse else cs

/-- `FlameGraph::populate_levels` (src/flame.rs), fuelled: the Rust
recursion descends through `children`, so it terminates exactly on
well-formed arenas (where every child index exceeds its parent's); the
fuel (chosen as `stacks'.length + 1` at the call site) covers that depth,
and exhaustion (`none`) models divergence on a malformed arena.  `none`
from the bounds checks models the panics of `unwrap` / vector indexing. -/
def populate_levels (sorted : Bool) :
    Nat → List StackInfo → List (List Nat) → Nat → Nat → Option (Nat × Frac) →
    Option (List StackInfo × List (List Nat))
  | 0, _, _, _, _, _ => none
  | fuel + 1, stacks', levels, stack_id, level, parentInfo =>
    let levels1 := if levels.length ≤ level then levels ++ [[]] else levels
    if level < levels1.length then
      let levels2 := listModify levels1 level (fun row => row ++ [stack_id])
      match stacks'.get? stack_id with
      | none => none
      | some stack =>
        let total := stack.total_count
        let width_factor : Frac :=
          match parentInfo with
          | some (ptotal, pwf) => ⟨pwf.num * total, pwf.den * ptotal⟩
          | none => ⟨1, 1⟩
        let newChildren := sortIf sorted stacks' stack.children
        let stacks1 := listModify stacks' stack_id
          (fun s => { s with width_factor := width_factor, children := newChildren })
        newChildren.foldl
          (fun acc cid => acc.bind (fun sl =>
            populate_levels sorted fuel sl.1 sl.2 cid (level + 1)
              (some (total, width_factor))))
          (some (stacks1, levels2))
    else none

/-- `FlameGraph::from_string` (src/flame.rs). -/
def from_string (content0 : List Char) (sorted : Bool) : Option FlameGraph :=
  match from_string_stacks content0 with
  | none => none
  | some (content, stacks') =>
    (populate_levels sorted (stacks'.length + 1) stacks' [] ROOT_ID 0 none).map
      (fun sl => { data := content, stacks' := sl.1, levels := sl.2,
                   hits := none, sorted := sorted,
                   ordered_stacks := ⟨SortColumn.Total, 0⟩ })

def get_stack (fg : FlameGraph) (stack_id : Nat) : Option StackInfo :=
  fg.stacks'.get? stack_id

def get_stack_short_name_from_info (fg : FlameGraph) (stack : StackInfo) :
    List Char :=
  if stack.id = ROOT_ID then ROOT
  else sliceCL fg.data stack.start_index stack.end_index

def get_stack_full_name_from_info (fg : FlameGraph) (stack : StackInfo) :
    List Char :=
  if stack.id = ROOT_ID then ROOT
  else sliceCL fg.data stack.line_index stack.end_index

def get_stack_short_name (fg : FlameGraph) (stack_id : Nat) :
    Option (List Char) :=
  (fg.get_stack stack_id).map fg.get_stack_short_name_from_info

def get_stack_by_full_name (fg : FlameGraph) (full_name : List Char) :
    Option StackInfo :=
  fg.stacks'.find? (fun stack =>
    fg.get_stack_full_name_from_info stack == full_name)

def get_stack_id_by_full_name (fg : FlameGraph) (full_name : List Char) :
    Option Nat :=
  (fg.get_stack_by_full_name full_name).map (fun s => s.id)

def get_stacks_at_level (fg : FlameGraph) (level : Nat) : Option (List Nat) :=
  fg.levels.get? level

def get_num_levels (fg : FlameGraph) : Nat :=
  fg.levels.length

/-- `FlameGraph::get_ancestors`, fuelled (the Rust `while` loop follows
parent links, terminating on well-formed arenas where parents precede
children). -/
def ancestorsAux (stacks' : List StackInfo) : Nat → Nat → List Nat
  | 0, _ => []
  | fuel + 1, cur =>
    match stacks'.get? cur with
    | none => []
    | some stack =>
      cur :: (match stack.parent with
        | some p => ancestorsAux stacks' fuel p
        | none => [])

def get_ancestors (fg : FlameGraph) (stack_id : Nat) : List Nat :=
  ancestorsAux fg.stacks' (fg.stacks'.length + 1) stack_id

/-- `FlameGraph::get_descendants`, fuelled: the Rust worklist is a `Vec`
popped from the back, so the head of the list here is the top of that
stack; children are pushed in order (hence reversed onto the top). -/
def descendantsAux (stacks' : List StackInfo) : Nat → List Nat → List Nat
  | 0, _ => []
  | _ + 1, [] => []
  | fuel + 1, sid :: rest =>
    sid :: descendantsAux stacks' fuel
      (match stacks'.get? sid with
       | some stack => stack.children.reverse ++ rest
       | none => rest)

def get_descendants (fg : FlameGraph) (stack_id : Nat) : List Nat :=
  descendantsAux fg.stacks' (fg.stacks'.length + 1) [stack_id]

/-- `FlameGraph::_count_hit_coverage`, fuelled; `none` models the `unwrap`
panic on a dangling index and divergence on a malformed arena. -/
def countHitCoverage (stacks' : List StackInfo) : Nat → Nat → Option Nat
  | 0, _ => none
  | fuel + 1, stack_id =>
    match stacks'.get? stack_id with
    | none => none
    | some stack =>
      if stack.hit then some stack.total_count
      else
        stack.children.foldl
          (fun acc cid => acc.bind (fun n =>
            (countHitCoverage stacks' fuel cid).map (fun k => n + k)))
          (some 0)

/-- `FlameGraph::_collect_hit_ids`. -/
def collectHitIds (stacks' : List StackInfo) (levels : List (List Nat)) :
    List Nat :=
  (levels.map (fun row => row.filter (fun sid =>
    match stacks'.get? sid with
    | some stack => stack.hit
    | none => false))).flatten

/-- `FlameGraph::set_hits` (src/flame.rs): every stack's `hit` flag is set
from the regex match of `data[start_index..end_index]`, then the coverage
count and ordered hit ids are stored. -/
def set_hits (fg : FlameGraph) (p : SearchPattern) : Option FlameGraph :=
  let stacks1 := fg.stacks'.map (fun stack =>
    { stack with hit := p.m (sliceCL fg.data stack.start_index stack.end_index) })
  (countHitCoverage stacks1 (stacks1.length + 1) ROOT_ID).map
    (fun cov => { fg with
      stacks' := stacks1
      hits := some ⟨cov, collectHitIds stacks1 fg.levels⟩ })

/-- `FlameGraph::clear_hits`. -/
def clear_hits (fg : FlameGraph) : FlameGraph :=
  { fg with
    stacks' := fg.stacks'.map (fun stack => { stack with hit := false })
    hits := none }

def hit_coverage_count (fg : FlameGraph) : Option Nat :=
  fg.hits.map (fun h => h.coverage_count)

def hit_ids (fg : FlameGraph) : Option (List Nat) :=
  fg.hits.map (fun h => h.ids)

end FlameGraph

/-! ### src/state.rs -/

/-- `ZoomState` from src/state.rs (`zoom_factor` is the exact value of the
`f64` field). -/
structure ZoomState where
  stack_id : Nat
  ancestors : List Nat
  descendants : List Nat
  zoom_factor : Frac
deriving Repr, DecidableEq

def ZoomState.is_ancestor_or_descendant (z : ZoomState) (stack_id : Nat) :
    Bool :=
  z.ancestors.contains stack_id || z.descendants.contains stack_id

inductive ViewKind
  | FlameGraphKind
  | Table
deriving Repr, DecidableEq

structure TableState where
  selected : Nat
  offset : Nat
deriving Repr, DecidableEq

def TableState.default : TableState := ⟨0, 0⟩

def TableState.reset (_t : TableState) : TableState := ⟨0, 0⟩

/-- `FlameGraphState` from src/state.rs (`frame_height`/`frame_width` are
`Option<u16>`, modelled with `Nat` values). -/
structure FlameGraphState where
  selected : Nat
  level_offset : Nat
  frame_height : Option Nat
  frame_width : Option Nat
  zoom : Option ZoomState
  search_pattern : Option SearchPattern
  freeze : Bool
  view_kind : ViewKind
  table_state : TableState

namespace FlameGraphState

def default : FlameGraphState :=
  { selected := ROOT_ID, level_offset := 0, frame_height := none,
    frame_width := none, zoom := none, search_pattern := none,
    freeze := false, view_kind := ViewKind.FlameGraphKind,
    table_state := TableState.default }

def select_root (st : FlameGraphState) : FlameGraphState :=
  { st with selected := ROOT_ID }

def select_id (st : FlameGraphState) (stack_id : Nat) : FlameGraphState :=
  { st with selected := stack_id }

def set_zoom (st : FlameGraphState) (zoom : ZoomState) : FlameGraphState :=
  { st with zoom := some zoom }

def unset_zoom (st : FlameGraphState) : FlameGraphState :=
  { st with zoom := none }

def set_search_pattern (st : FlameGraphState) (p : SearchPattern) :
    FlameGraphState :=
  { st with search_pattern := some p }

def unset_search_pattern (st : FlameGraphState) : FlameGraphState :=
  { st with search_pattern := none }

/-- `FlameGraphState::get_new_stack_id` (src/state.rs): resolve a stack of
the old flamegraph by its full name in the new flamegraph. -/
def get_new_stack_id (stack_id : Nat) (old new : FlameGraph) : Option Nat :=
  (old.get_stack stack_id).bind (fun stack =>
    (new.get_stack_by_full_name (old.get_stack_full_name_from_info stack)).map
      (fun s => s.id))

/-- `FlameGraphState::handle_flamegraph_replacement` (src/state.rs).  The
Rust function mutates `new` in place when re-applying the search pattern;
here the updated state and the (possibly hit-marked) new flamegraph are
returned, with `none` from `set_hits` modelling its panics. -/
def handle_flamegraph_replacement (st : FlameGraphState)
    (old new : FlameGraph) : Option (FlameGraphState × FlameGraph) :=
  let st1 :=
    if st.selected ≠ ROOT_ID then
      match get_new_stack_id st.selected old new with
      | some new_stack_id => { st with selected := new_stack_id }
      | none => st.select_root
    else st
  let st2 :=
    match st1.zoom with
    | some zoom =>
      match get_new_stack_id zoom.stack_id old new with
      | some new_stack_id => { st1 with zoom := some { zoom with stack_id := new_stack_id } }
      | none => st1.unset_zoom
    | none => st1
  match st2.search_pattern with
  | some p => (new.set_hits p).map (fun new1 => (st2, new1))
  | none => some (st2, new)

end FlameGraphState

/-! ### src/view.rs -/

/-- `FlameGraphView` from src/view.rs.  The `updated_at : Instant` field is
wall-clock bookkeeping and is not modelled. -/
structure FlameGraphView where
  flamegraph : FlameGraph
  state : FlameGraphState

namespace FlameGraphView

def new (flamegraph : FlameGraph) : FlameGraphView :=
  ⟨flamegraph, FlameGraphState.default⟩

/-- `FlameGraphView::set_search_pattern`. -/
def set_search_pattern (v : FlameGraphView) (p : SearchPattern) :
    Option FlameGraphView :=
  (v.flamegraph.set_hits p).map (fun fg =>
    { v with flamegraph := fg, state := v.state.set_search_pattern p })

/-- `FlameGraphView::unset_search_pattern`. -/
def unset_search_pattern (v : FlameGraphView) : FlameGraphView :=
  { v with
    flamegraph := v.flamegraph.clear_hits
    state := v.state.unset_search_pattern }

/-- `FlameGraphView::select_id` (src/view.rs): sets the cursor and, unless
a manual pattern is active, installs the auto pattern matching the exact
short name of the selected stack.  The `SearchPattern::new(_, false, _)`
call never fails (hence the Rust `unwrap`); `none` comes only from
`set_hits`. -/
def select_id (v : FlameGraphView) (stack_id : Nat) : Option FlameGraphView :=
  let v1 := { v with state := v.state.select_id stack_id }
  let manual := match v1.state.search_pattern with
    | some p => p.is_manual
    | none => false
  if manual then some v1
  else
    match v1.flamegraph.get_stack_short_name stack_id with
    | some pattern =>
      v1.set_search_pattern ⟨pattern, false, fun s => s == pattern, false⟩
    | none => some v1

/-- `FlameGraphView::is_stack_in_view_port`.  Rust computes
`min_level + frame_height - 1` in `usize`; the subtraction is modelled in
`ℤ` (for `frame_height = 0` the Rust expression would underflow; no claim
exercises that corner). -/
def is_stack_in_view_port (v : FlameGraphView) (stack : StackInfo) : Bool :=
  match v.state.frame_height with
  | some frame_height =>
    let min_level := v.state.level_offset
    let max_level : Int := (min_level : Int) + (frame_height : Int) - 1
    decide (min_level ≤ stack.level) && decide ((stack.level : Int) ≤ max_level)
  | none => true

/-- `FlameGraphView::is_stack_visibly_wide`. -/
def is_stack_visibly_wide (v : FlameGraphView) (stack : StackInfo)
    (zoom_factor : Option Frac) : Bool :=
  match v.state.frame_width with
  | some frame_width =>
    let expected_frame_width := stack.width_factor.mul (Frac.ofNat frame_width)
    match zoom_factor with
    | some zf => (expected_frame_width.mul zf).geOne
    | none =>
      match v.state.zoom with
      | some zoom =>
        let adjusted_frame_width := expected_frame_width.mul zoom.zoom_factor
        -- the Rust code short-circuits on the width check before the
        -- ancestor/descendant membership test
        adjusted_frame_width.geOne && zoom.is_ancestor_or_descendant stack.id
      | none => expected_frame_width.geOne
  | none => true

/-- `FlameGraphView::select_stack_in_view_port`. -/
def select_stack_in_view_port (v : FlameGraphView) : Option FlameGraphView :=
  match v.flamegraph.get_stacks_at_level v.state.level_offset with
  | some ids =>
    match ids.find? (fun sid =>
        match v.flamegraph.get_stack sid with
        | some stack => v.is_stack_visibly_wide stack none
        | none => false) with
    | some sid => v.select_id sid
    | none => some v
  | none => some v

/-- `FlameGraphView::keep_selected_stack_in_view_port`. -/
def keep_selected_stack_in_view_port (v : FlameGraphView) :
    Option FlameGraphView :=
  match v.flamegraph.get_stack v.state.selected with
  | some stack =>
    if v.is_stack_in_view_port stack then some v
    else v.select_stack_in_view_port
  | none => some v

/-- `FlameGraphView::set_frame_height`. -/
def set_frame_height (v : FlameGraphView) (frame_height : Nat) :
    Option FlameGraphView :=
  let v1 := { v with state := { v.state with frame_height := some frame_height } }
  v1.keep_selected_stack_in_view_port

/-- `FlameGraphView::set_frame_width`. -/
def set_frame_width (v : FlameGraphView) (frame_width : Nat) :
    FlameGraphView :=
  { v with state := { v.state with frame_width := some frame_width } }

/-- `FlameGraphView::set_level_offset`. -/
def set_level_offset (v : FlameGraphView) (level_offset : Nat) :
    FlameGraphView :=
  let max_level_offset :=
    v.flamegraph.get_num_levels - (v.state.frame_height.getD 1)
  { v with state := { v.state with
      level_offset := min level_offset max_level_offset } }

/-- `FlameGraphView::to_parent_stack` (src/view.rs).  The Rust statement
`self.state.level_offset -= 1` is an unchecked `usize` subtraction; `none`
models its underflow (a panic in a debug build). -/
def to_parent_stack (v : FlameGraphView) : Option FlameGraphView :=
  match v.flamegraph.get_stack v.state.selected with
  | none => some { v with state := v.state.select_root }
  | some stack =>
    match stack.parent with
    | none => some v
    | some parent =>
      let afterScroll : Option FlameGraphView :=
        match v.flamegraph.get_stack parent with
        | some parent_stack =>
          if v.is_stack_in_view_port parent_stack then some v
          else if v.state.level_offset = 0 then none
          else some { v with state := { v.state with
            level_offset := v.state.level_offset - 1 } }
        | none => some v
      afterScroll.bind (fun v1 => v1.select_id parent)

/-- `FlameGraphView::unset_zoom` (src/view.rs): restores the selection to
the zoomed stack, then clears the zoom. -/
def unset_zoom (v : FlameGraphView) : Option FlameGraphView :=
  match v.state.zoom with
  | some zoom =>
    (v.select_id zoom.stack_id).map (fun v1 =>
      { v1 with state := v1.state.unset_zoom })
  | none => some { v with state := v.state.unset_zoom }

/-- `FlameGraphView::set_zoom_for_id` (src/view.rs).  The Rust code reads
`self.flamegraph.total_count()` (an unwrap of the root stack); a missing
root is modelled as `none`. -/
def set_zoom_for_id (v : FlameGraphView) (stack_id : Nat) :
    Option FlameGraphView :=
  match v.flamegraph.get_stack stack_id with
  | none => some v
  | some selected_stack =>
    match v.flamegraph.get_stack ROOT_ID with
    | none => none
    | some root_stack =>
      let zoom_factor : Frac := ⟨root_stack.total_count, selected_stack.total_count⟩
      let ancestors := v.flamegraph.get_ancestors stack_id
      let descendants := v.flamegraph.get_descendants stack_id
      let zoom : ZoomState := ⟨stack_id, ancestors, descendants, zoom_factor⟩
      if stack_id = ROOT_ID then v.unset_zoom
      else some { v with state := v.state.set_zoom zoom }

/-- `FlameGraphView::set_zoom`. -/
def set_zoom (v : FlameGraphView) : Option FlameGraphView :=
  v.set_zoom_for_id v.state.selected

/-- `FlameGraphView::replace_flamegraph` (src/view.rs). -/
def replace_flamegraph (v : FlameGraphView) (new_flamegraph : FlameGraph) :
    Option FlameGraphView :=
  (v.state.handle_flamegraph_replacement v.flamegraph new_flamegraph).bind
    (fun sn =>
      let new1 := { sn.2 with ordered_stacks :=
        sn.2.ordered_stacks.set_sort_column v.flamegraph.ordered_stacks.sorted_column }
      let v1 : FlameGraphView := { flamegraph := new1, state := sn.1 }
      match v1.state.zoom with
      | some zoom => v1.set_zoom_for_id zoom.stack_id
      | none => some v1)

end FlameGraphView

/-! ### src/app.rs -/

/-- `App` from src/app.rs, restricted to the fields the claims touch (the
input buffer, timing map and live-sampler plumbing are external
collaborators / wall-clock bookkeeping). -/
structure App where
  running : Bool
  flamegraph_view : FlameGraphView
  transient_message : Option (List Char)
  debug : Bool

def App.set_transient_message (app : App) (message : List Char) : App :=
  { app with transient_message := some message }

/-- `App::set_manual_search_pattern` (src/app.rs): on a successful compile
the pattern is installed through the view; on failure only the transient
message is set.  `compile` abstracts the external regex compiler (see
`SearchPattern.new`). -/
def App.set_manual_search_pattern
    (compile : List Char → Option (List Char → Bool)) (app : App)
    (pattern : List Char) (is_regex : Bool) : Option App :=
  match SearchPattern.new compile pattern is_regex true with
  | some p =>
    (app.flamegraph_view.set_search_pattern p).map
      (fun v => { app with flamegraph_view := v })
  | none =>
    some (app.set_transient_message (cl "Invalid regex: " ++ pattern))

/-! ### Spec-side definitions (used to state claims, not taken from the code) -/

/-- Modelled from the spec: a stable sort by descending total count (equal
keys keep their original relative order), the child order §4.1/C5 claims
`populate_levels` produces.  Insertion step. -/
def insertDescBy (key : Nat → Nat) (x : Nat) : List Nat → List Nat
  | [] => [x]
  | y :: ys => if key x < key y then y :: insertDescBy key x ys else x :: y :: ys

/-- Modelled from the spec: see `insertDescBy`. -/
def sortByKeyDescStable (key : Nat → Nat) : List Nat → List Nat
  | [] => []
  | x :: xs => insertDescBy key x (sortByKeyDescStable key xs)

/-- The count a line contributes per the spec: its COUNT when it is
accepted (parses as `<path> <uint>` and does not start with `'#'`), 0 when
it is skipped. -/
def acceptedCount (line : List Char) : Nat :=
  match parseLine line with
  | some pc => if line.head? = some '#' then 0 else pc.2
  | none => 0

/-- The spec-side sum of the COUNT values of all accepted lines. -/
def acceptedSum (lines : List (Nat × List Char)) : Nat :=
  (lines.map (fun pl => acceptedCount pl.2)).sum

/-- The spec-side sum, over a node's children, of their total counts (a
dangling child index contributes 0; well-formedness rules that out). -/
def childTotalSum (arena : List StackInfo) (cs : List Nat) : Nat :=
  (cs.map (fun c => ((arena.get? c).map (fun s => s.total_count)).getD 0)).sum

/-! ### Concrete fixtures for witnesses and counterexamples -/

def emptyFG : FlameGraph := ⟨[], [], [], none, false, ⟨SortColumn.Total, 0⟩⟩

/-- The spec §8 example tree `"a;b 3\na;c 5\na 2"`. -/
def fgW : FlameGraph :=
  (FlameGraph.from_string (cl "a;b 3\na;c 5\na 2") false).getD emptyFG

def c9view : FlameGraphView :=
  ((FlameGraphView.new fgW).set_zoom_for_id 2).getD (FlameGraphView.new emptyFG)

def c9after : FlameGraphView :=
  (c9view.unset_zoom).getD (FlameGraphView.new emptyFG)

def rootW : StackInfo := (fgW.get_stack ROOT_ID).getD FlameGraph.rootInfo

def zW : ZoomState := (c9view.state.zoom).getD ⟨0, [], [], ⟨0, 1⟩⟩

def app0 : App := ⟨true, FlameGraphView.new emptyFG, none, false⟩

def c10_view : Option FlameGraphView :=
  (FlameGraph.from_string (cl "a;b;c 1") false).bind (fun fg =>
    (((FlameGraphView.new fg).set_frame_width 80).set_frame_height 1).bind
      (fun v2 => v2.select_id 3))

def pAll : SearchPattern := ⟨cl "all", false, fun s => s == cl "all", true⟩

def c2OldView : Option FlameGraphView :=
  ((FlameGraph.from_string (cl "all 1") true).map FlameGraphView.new).bind
    (fun v => v.set_zoom_for_id 1)

def c2NewFG : Option FlameGraph := FlameGraph.from_string (cl "all 1") true

structure ArenaInv (arena : List StackInfo) : Prop where
  nonempty : 0 < arena.length
  idOk : ∀ i info, arena.get? i = some info → info.id = i
  rootParent : ∀ info, arena.get? 0 = some info → info.parent = none
  childrenBound : ∀ i info c, arena.get? i = some info → c ∈ info.children →
    i < c ∧ c < arena.length
  childrenNodup : ∀ i info, arena.get? i = some info → info.children.Nodup
  parentLink : ∀ p pinfo c cinfo, arena.get? p = some pinfo →
    c ∈ pinfo.children → arena.get? c = some cinfo → cinfo.parent = some p
  connected : ∀ i info, arena.get? i = some info → i ≠ 0 →
    ∃ p pinfo, info.parent = some p ∧ arena.get? p = some pinfo ∧ p < i ∧
      i ∈ pinfo.children

def bumpCounts (count : Nat) (is_self : Bool) (info : StackInfo) : StackInfo :=
  { info with
    total_count := info.total_count + count
    self_count := info.self_count + (if is_self then count else 0) }

def freshChild (arenaLen line_index start_index end_index parent_id level : Nat) :
    StackInfo :=
  { id := arenaLen, line_index := line_index, start_index := start_index,
    end_index := end_index, total_count := 0, self_count := 0,
    width_factor := ⟨0, 1⟩, parent := some parent_id, children := [],
    level := level, hit := false }

def CountBalancedExcept (arena : List StackInfo) (e : Nat) (count : Nat) : Prop :=
  ∀ i info, arena.get? i = some info →
    info.total_count = info.self_count + childTotalSum arena info.children +
      (if i = e then count else 0)

def CountBalanced (arena : List StackInfo) : Prop :=
  ∀ i info, arena.get? i = some info →
    info.total_count = info.self_count + childTotalSum arena info.children

def PosTotals (arena : List StackInfo) : Prop :=
  ∀ i info, arena.get? i = some info → i ≠ 0 → 1 ≤ info.total_count

/-- Scalar fields preserved by the remaining parse steps (everything except
counts and children). -/
def FieldsEq (info' info : StackInfo) : Prop :=
  info'.id = info.id ∧ info'.line_index = info.line_index ∧
  info'.start_index = info.start_index ∧ info'.end_index = info.end_index ∧
  info'.parent = info.parent ∧ info'.level = info.level ∧
  info'.hit = info.hit ∧ info'.width_factor = info.width_factor

/-- Every accepted line has a positive COUNT. -/
def PosCounts (lines : List (Nat × List Char)) : Prop :=
  ∀ pl ∈ lines, ∀ path c, parseLine pl.2 = some (path, c) →
    ¬ pl.2.head? = some '#' → 1 ≤ c

/-! ### Reachability in the arena (the subtree relation) -/

/-- `Reach arena i j`: `j` lies in the subtree rooted at `i` (following
`children` lists). -/
inductive Reach (arena : List StackInfo) : Nat → Nat → Prop
  | refl (i : Nat) : Reach arena i i
  | step {i j k : Nat} {info : StackInfo} : Reach arena i j →
      arena.get? j = some info → k ∈ info.children → Reach arena i k

/-! ### The `populate_levels` pass -/

/-- Fields `populate_levels` never changes (everything except
`width_factor` and the order of `children`). -/
def SameCore (info' info : StackInfo) : Prop :=
  info'.id = info.id ∧ info'.line_index = info.line_index ∧
  info'.start_index = info.start_index ∧ info'.end_index = info.end_index ∧
  info'.total_count = info.total_count ∧ info'.self_count = info.self_count ∧
  info'.parent = info.parent ∧ info'.level = info.level ∧ info'.hit = info.hit

/-- The relation between the parse-time arena and any intermediate state of
`populate_levels`: same length, every node keeps its core fields and its
children up to permutation. -/
def ArenaRel (arena arenaC : List StackInfo) : Prop :=
  arenaC.length = arena.length ∧
  ∀ j info, arena.get? j = some info → ∃ info',
    arenaC.get? j = some info' ∧ SameCore info' info ∧
    info'.children.Perm info.children

/-- The parent-relative width factor `populate_levels` writes into the
visited node. -/
def wfOf : Option (Nat × Frac) → Nat → Frac
  | some pt, total => ⟨pt.2.num * total, pt.2.den * pt.1⟩
  | none, _ => ⟨1, 1⟩

/-- The full specification of one `populate_levels` call on a well-formed
arena: it succeeds, the arena's length is unchanged, nodes outside the
subtree of `i` are untouched, every node inside keeps its core fields,
gets its children stably re-sorted (when `sorted`), and receives exactly
the parent-relative width factor. -/
@[reducible] def PopConc (sorted : Bool) (fuel : Nat) (arena : List StackInfo)
    (levels : List (List Nat)) (i level : Nat)
    (pinfo : Option (Nat × Frac)) : Prop :=
  ∃ arena' levels',
    FlameGraph.populate_levels sorted fuel arena levels i level pinfo =
      some (arena', levels') ∧
    ArenaInv arena' ∧ arena'.length = arena.length ∧
    levels.length ≤ levels'.length ∧
    (∀ j, ¬ Reach arena i j → arena'.get? j = arena.get? j) ∧
    (∀ j info, arena.get? j = some info → Reach arena i j → ∃ info',
      arena'.get? j = some info' ∧ SameCore info' info ∧
      info'.children = FlameGraph.sortIf sorted arena info.children ∧
      (j = i → info'.width_factor = wfOf pinfo info.total_count) ∧
      (j ≠ i → ∃ p pjinfo, info'.parent = some p ∧
        arena'.get? p = some pjinfo ∧
        info'.width_factor = ⟨pjinfo.width_factor.num * info'.total_count,
          pjinfo.width_factor.den * pjinfo.total_count⟩))

/-! ### A decidable check of the arena invariants (for concrete witnesses) -/

def arenaInvB (arena : List StackInfo) : Bool :=
  decide (0 < arena.length) &&
  (List.range arena.length).all (fun i =>
    match arena.get? i with
    | none => true
    | some info =>
      decide (info.id = i) &&
      (if i = 0 then decide (info.parent = none) else
        match info.parent with
        | some p => decide (p < i) &&
          (match arena.get? p with
           | some pinfo => decide (i ∈ pinfo.children)
           | none => false)
        | none => false) &&
      decide info.children.Nodup &&
      info.children.all (fun c =>
        decide (i < c) &&
        match arena.get? c with
        | some cinfo => decide (cinfo.parent = some i)
        | none => false))

/-! ### Witness fixtures for the remaining claims -/

def fgT : FlameGraph :=
  (FlameGraph.from_string (cl "a 1\nb 1") true).getD emptyFG

def arenaPreT : List StackInfo :=
  ((FlameGraph.from_string_stacks (cl "a 1\nb 1")).map
    (fun pr => pr.2)).getD []

def rootT : StackInfo := (fgT.stacks'.get? 0).getD FlameGraph.rootInfo

def rootPreT : StackInfo := (arenaPreT.get? 0).getD FlameGraph.rootInfo

def fgA : FlameGraph :=
  (FlameGraph.from_string (cl "a 1") true).getD emptyFG

def fgA2 : FlameGraph := (fgA.set_hits pAll).getD emptyFG

def rootA : StackInfo := (fgA.stacks'.get? 0).getD FlameGraph.rootInfo

def c7arena : List StackInfo :=
  fgW.stacks'.map (fun s => { s with hit := s.id == 0 })

def c7root : StackInfo := (c7arena.get? 0).getD FlameGraph.rootInfo

def stW : FlameGraphState := (FlameGraphView.new fgW).state

def rW : FlameGraphState × FlameGraph :=
  (stW.handle_flamegraph_replacement fgW fgW).getD (stW, fgW)

def vW2 : FlameGraphView :=
  ((FlameGraphView.new fgW).replace_flamegraph fgW).getD
    (FlameGraphView.new emptyFG)

def vZ : FlameGraphView :=
  ((FlameGraphView.new fgW).set_zoom_for_id 1).getD
    (FlameGraphView.new emptyFG)

def zZ : ZoomState := (vZ.state.zoom).getD ⟨0, [], [], ⟨0, 1⟩⟩

def vZ2 : FlameGraphView :=
  (vZ.replace_flamegraph fgW).getD (FlameGraphView.new emptyFG)

def rZ : FlameGraphState × FlameGraph :=
  (vZ.state.handle_flamegraph_replacement vZ.flamegraph fgW).getD
    (vZ.state, fgW)

def fgC : FlameGraph := c2NewFG.getD emptyFG

def vC : FlameGraphView := c2OldView.getD (FlameGraphView.new emptyFG)

def zC : ZoomState := (vC.state.zoom).getD ⟨0, [], [], ⟨0, 1⟩⟩

def vC2 : FlameGraphView :=
  (vC.replace_flamegraph fgC).getD (FlameGraphView.new emptyFG)

theorem length_listModify {α : Type} (l : List α) (i : Nat) (f : α → α) :
    (listModify l i f).length = l.length := by
  induction l generalizing i with
  | nil => rfl
  | cons a as ih =>
    cases i with
    | zero => rfl
    | succ i => simpa [listModify] using ih i

theorem get?_listModify_self {α : Type} {l : List α} {i : Nat} {a : α} (f : α → α)
    (h : l.get? i = some a) : (listModify l i f).get? i = some (f a) := by
  induction l generalizing i with
  | nil => simp [List.get?] at h
  | cons b bs ih =>
    cases i with
    | zero =>
      simp [List.get?] at h
      subst h
      rfl
    | succ i =>
      simp only [List.get?] at h
      simpa [listModify, List.get?] using ih h

theorem get?_listModify_ne {α : Type} {l : List α} {i j : Nat} (f : α → α)
    (h : i ≠ j) : (listModify l i f).get? j = l.get? j := by
  induction l generalizing i j with
  | nil => rfl
  | cons b bs ih =>
    cases i with
    | zero =>
      cases j with
      | zero => exact absurd rfl h
      | succ j => rfl
    | succ i =>
      cases j with
      | zero => rfl
      | succ j =>
        simpa [listModify, List.get?] using ih (fun hij => h (by omega))

theorem get?_listModify_none {α : Type} {l : List α} {i : Nat} (f : α → α)
    (h : l.get? i = none) : listModify l i f = l := by
  induction l generalizing i with
  | nil => rfl
  | cons b bs ih =>
    cases i with
    | zero => simp [List.get?] at h
    | succ i =>
      simp only [List.get?] at h
      simp [listModify, ih h]

/-! ### Helper lemmas about the view operations -/

/-- `select_id` always sets the cursor to the requested stack and touches
neither the zoom nor the scroll offset nor the frame dimensions. -/
theorem select_id_state {v v1 : FlameGraphView} {sid : Nat}
    (h : v.select_id sid = some v1) :
    v1.state.selected = sid ∧ v1.state.zoom = v.state.zoom ∧
      v1.state.level_offset = v.state.level_offset ∧
      v1.state.frame_height = v.state.frame_height ∧
      v1.state.frame_width = v.state.frame_width := by
  unfold FlameGraphView.select_id at h
  simp only [FlameGraphState.select_id] at h
  cases hp : v.state.search_pattern with
  | some p =>
    simp only [hp] at h
    cases hm : p.is_manual with
    | true =>
      simp only [hm, if_pos] at h
      cases h
      exact ⟨rfl, rfl, rfl, rfl, rfl⟩
    | false =>
      simp only [hm, Bool.false_eq_true, if_false] at h
      cases hg : FlameGraph.get_stack_short_name v.flamegraph sid with
      | none =>
        simp only [hg] at h
        cases h
        exact ⟨rfl, rfl, rfl, rfl, rfl⟩
      | some pat =>
        simp only [hg, FlameGraphView.set_search_pattern] at h
        cases hs : FlameGraph.set_hits v.flamegraph
            ⟨pat, false, fun s => s == pat, false⟩ with
        | none => simp only [hs, Option.map_none'] at h; exact absurd h (by simp)
        | some fg1 =>
          simp only [hs, Option.map_some', Option.some.injEq] at h
          subst h
          exact ⟨rfl, rfl, rfl, rfl, rfl⟩
  | none =>
    simp only [hp, Bool.false_eq_true, if_false] at h
    cases hg : FlameGraph.get_stack_short_name v.flamegraph sid with
    | none =>
      simp only [hg] at h
      cases h
      exact ⟨rfl, rfl, rfl, rfl, rfl⟩
    | some pat =>
      simp only [hg, FlameGraphView.set_search_pattern] at h
      cases hs : FlameGraph.set_hits v.flamegraph
          ⟨pat, false, fun s => s == pat, false⟩ with
      | none => simp only [hs, Option.map_none'] at h; exact absurd h (by simp)
      | some fg1 =>
        simp only [hs, Option.map_some', Option.some.injEq] at h
        subst h
        exact ⟨rfl, rfl, rfl, rfl, rfl⟩

/-! ### Claim C8 -/

/-- C8: for every application state and every pattern whose regex
compilation fails, `App::set_manual_search_pattern` leaves the whole view
(hence the previously active pattern, the hit flags and the coverage
state) unchanged and only records the transient "Invalid regex" message. -/
theorem c8_invalid_pattern_preserves
    (compile : List Char → Option (List Char → Bool)) (app : App)
    (pattern : List Char) (h : compile pattern = none) :
    App.set_manual_search_pattern compile app pattern true =
      some { app with
        transient_message := some (cl "Invalid regex: " ++ pattern) } := by
  simp [App.set_manual_search_pattern, SearchPattern.new, h,
    App.set_transient_message]

/-- Witness for C8 at a concrete application state and failing pattern. -/
theorem c8_invalid_pattern_preserves_witness :
    App.set_manual_search_pattern (fun _ => none) app0 (cl "[") true =
      some { app0 with
        transient_message := some (cl "Invalid regex: " ++ cl "[") } :=
  c8_invalid_pattern_preserves (fun _ => none) app0 (cl "[") rfl

/-! ### Claim C9 -/

/-- C9: invoking `set_zoom` while the root is selected is the same
operation as `unset_zoom`, and whenever a zoom is active `unset_zoom`
moves the selection to the zoom target before clearing the zoom. -/
theorem c9_zoom_root_unzoom :
    (∀ (v : FlameGraphView) (r : StackInfo),
      v.flamegraph.get_stack ROOT_ID = some r → v.state.selected = ROOT_ID →
        v.set_zoom = v.unset_zoom) ∧
    (∀ (v : FlameGraphView) (z : ZoomState) (v' : FlameGraphView),
      v.state.zoom = some z → v.unset_zoom = some v' →
        v'.state.selected = z.stack_id ∧ v'.state.zoom = none) := by
  constructor
  · intro v r hroot hsel
    unfold FlameGraphView.set_zoom FlameGraphView.set_zoom_for_id
    rw [hsel]
    simp only [ROOT_ID] at hroot
    simp [ROOT_ID, hroot]
  · intro v z v' hz h
    unfold FlameGraphView.unset_zoom at h
    simp only [hz] at h
    cases hsel : v.select_id z.stack_id with
    | none => simp only [hsel, Option.map_none'] at h; exact absurd h (by simp)
    | some v1 =>
      simp only [hsel, Option.map_some', Option.some.injEq] at h
      subst h
      have hst := select_id_state hsel
      exact ⟨hst.1, rfl⟩

/-- Witness for C9 on the spec §8 example tree with a zoom on node 2. -/
theorem c9_zoom_root_unzoom_witness :
    c9view.set_zoom = c9view.unset_zoom ∧
      (c9after.state.selected = zW.stack_id ∧ c9after.state.zoom = none) :=
  ⟨c9_zoom_root_unzoom.1 c9view rootW rfl rfl,
   c9_zoom_root_unzoom.2 c9view zW c9after (by decide) rfl⟩

/-! ### Claim C10 -/

/-- C10: a state reachable through the view's public operations
(`set_frame_width 80`, `set_frame_height 1`, `select_id` of the depth-3
node of `"a;b;c 1"`) has `level_offset = 0` while the selected node's
parent lies outside the viewport, so `to_parent_stack` reaches the
unchecked `level_offset -= 1` with `level_offset = 0` and the `usize`
subtraction underflows (modelled by `none`): the claimed invariant fails
on the code. -/
theorem c10_to_parent_underflow :
    c10_view.isSome = true ∧
    c10_view.map (fun v => v.state.level_offset) = some 0 ∧
    c10_view.map (fun v =>
      (v.flamegraph.get_stack v.state.selected).bind (fun st =>
        st.parent.bind (fun p =>
          (v.flamegraph.get_stack p).map (fun ps => v.is_stack_in_view_port ps))))
      = some (some false) ∧
    (c10_view.bind FlameGraphView.to_parent_stack).isNone = true :=
  ⟨by decide, by decide, by decide, by decide⟩

/-! ### Counterexamples for claims C2, C4, C5, C6 -/

/-- C2 counterexample: in the old tree `"all 1"` the zoom target (node 1,
full path `"all"`) resolves in the new tree (to the root, whose sentinel
full name is also `"all"`), yet after `replace_flamegraph` the zoom is
cleared rather than remapped and recomputed. -/
theorem c2_replacement_cex :
    c2OldView.map (fun v => v.state.zoom.map (fun z => z.stack_id))
      = some (some 1) ∧
    (c2OldView.bind (fun v => c2NewFG.bind (fun nfg =>
      FlameGraphState.get_new_stack_id 1 v.flamegraph nfg))) = some 0 ∧
    ((c2OldView.bind (fun v => c2NewFG.bind (fun nfg =>
      v.replace_flamegraph nfg))).map (fun v => v.state.zoom.isNone))
      = some true :=
  ⟨by decide, by decide, by decide⟩

/-- C4 counterexample: parsing `"a 1\nb 0"` gives node 2 (`b`, total count
0) the width factor `0/1 = 0`, which does not lie in the half-open
interval `(0, 1]`. -/
theorem c4_width_factor_cex :
    ((FlameGraph.from_string (cl "a 1\nb 0") true).bind (fun fg =>
      (fg.stacks'.get? 2).map (fun i => i.width_factor))) = some ⟨0, 1⟩ ∧
    ¬(0 < Frac.toRat ⟨0, 1⟩) :=
  ⟨by decide, by norm_num [Frac.toRat]⟩

/-- C5 counterexample: for `"a 1\nb 1"` the insertion-order children of the
root are `[1, 2]` with equal total counts, the claimed stable descending
sort keeps `[1, 2]`, but the code (stable ascending sort followed by
`reverse`) produces `[2, 1]`: ties are reversed, not kept. -/
theorem c5_sorted_children_cex :
    ((FlameGraph.from_string (cl "a 1\nb 1") false).bind (fun fg =>
      (fg.stacks'.get? 0).map (fun r =>
        sortByKeyDescStable (FlameGraph.keyTotal fg.stacks') r.children)))
      = some [1, 2] ∧
    ((FlameGraph.from_string (cl "a 1\nb 1") true).bind (fun fg =>
      (fg.stacks'.get? 0).map (fun r => r.children))) = some [2, 1] ∧
    ([2, 1] : List Nat) ≠ [1, 2] :=
  ⟨by decide, by decide, by decide⟩

/-- C6 counterexample: with the non-regex pattern `"all"` (compiled to the
exact matcher by `SearchPattern::new`) on the tree of `"a 1"`, the claim
predicts the root is hit (its short name is the sentinel `"all"`), but
`set_hits` matches the root against `data[0..0]` (the empty string) and
leaves every hit flag false. -/
theorem c6_set_hits_cex :
    SearchPattern.new (fun _ => none) (cl "all") false true = some pAll ∧
    ((FlameGraph.from_string (cl "a 1") true).bind (fun fg =>
      fg.set_hits pAll)).map (fun fg => fg.stacks'.map (fun i => i.hit))
      = some [false, false] ∧
    pAll.m ROOT = true :=
  ⟨rfl, by decide, by decide⟩

theorem get?_append_one_ne {α : Type} (l : List α) (x : α) {j : Nat}
    (h : j ≠ l.length) : (l ++ [x]).get? j = l.get? j := by
  rcases Nat.lt_or_ge j l.length with hlt | hge
  · exact List.get?_append hlt
  · rw [List.get?_len_le (by simp; omega), List.get?_len_le hge]

theorem findChild_spec (arena : List StackInfo) (content short_name : List Char)
    (cs : List Nat) (hb : ∀ c ∈ cs, c < arena.length) :
    ∃ r, FlameGraph.update_one.findChild arena content short_name cs = some r ∧
      ∀ cid, r = some cid → cid ∈ cs := by
  induction cs with
  | nil => exact ⟨none, rfl, by intro cid h; cases h⟩
  | cons c rest ih =>
    have hc : c < arena.length := hb c (List.mem_cons_self c rest)
    obtain ⟨cinfo, hcinfo⟩ : ∃ x, arena.get? c = some x :=
      ⟨arena.get ⟨c, hc⟩, List.get?_eq_get hc⟩
    obtain ⟨r, hr, hmem⟩ := ih (fun x hx => hb x (List.mem_cons_of_mem c hx))
    unfold FlameGraph.update_one.findChild
    simp only [hcinfo]
    by_cases hsn : sliceCL content cinfo.start_index cinfo.end_index = short_name
    · refine ⟨some c, by rw [if_pos hsn], ?_⟩
      intro cid h
      cases h
      exact List.mem_cons_self c rest
    · refine ⟨r, by rw [if_neg hsn]; exact hr, ?_⟩
      intro cid h
      exact List.mem_cons_of_mem c (hmem cid h)

theorem update_one_spec (arena : List StackInfo) (content : List Char)
    (count li a b p lvl : Nat) (is_self : Bool)
    (inv : ArenaInv arena) (hp : p < arena.length) :
    ∃ arena' cid,
      FlameGraph.update_one arena content count li a b p lvl is_self =
        some (arena', cid) ∧
      p < cid ∧ cid < arena'.length ∧
      arena.length ≤ arena'.length ∧ arena'.length ≤ arena.length + 1 ∧
      (∀ j, j ≠ p → j ≠ cid → arena'.get? j = arena.get? j) ∧
      ((∃ cinfo pinfo, arena.get? cid = some cinfo ∧
          arena.get? p = some pinfo ∧ cid ∈ pinfo.children ∧
          arena'.get? cid = some (bumpCounts count is_self cinfo) ∧
          arena'.get? p = arena.get? p ∧ arena'.length = arena.length) ∨
       (∃ pinfo, cid = arena.length ∧
          arena.get? p = some pinfo ∧
          arena'.get? cid = some (bumpCounts count is_self (freshChild arena.length li a b p lvl)) ∧
          arena'.get? p = some { pinfo with children := pinfo.children ++ [cid] } ∧
          arena'.length = arena.length + 1)) := by
  obtain ⟨pinfo, hpinfo⟩ : ∃ x, arena.get? p = some x :=
    ⟨arena.get ⟨p, hp⟩, List.get?_eq_get hp⟩
  have hb : ∀ c ∈ pinfo.children, c < arena.length := fun c hc =>
    (inv.childrenBound p pinfo c hpinfo hc).2
  obtain ⟨r, hr, hmem⟩ := findChild_spec arena content
    (sliceCL content a b) pinfo.children hb
  cases r with
  | some cid =>
    have hcid_mem : cid ∈ pinfo.children := hmem cid rfl
    have hcb := inv.childrenBound p pinfo cid hpinfo hcid_mem
    obtain ⟨cinfo, hcinfo⟩ : ∃ x, arena.get? cid = some x :=
      ⟨arena.get ⟨cid, hcb.2⟩, List.get?_eq_get hcb.2⟩
    refine ⟨listModify arena cid (fun i =>
      { i with
        total_count := i.total_count + count
        self_count := i.self_count + (if is_self then count else 0) }), cid,
      ?_, hcb.1, ?_, ?_, ?_, ?_, ?_⟩
    · unfold FlameGraph.update_one
      simp only [hpinfo, hr, hcinfo]
    · rw [length_listModify]; exact hcb.2
    · rw [length_listModify]
    · rw [length_listModify]; omega
    · intro j hjp hjc
      exact get?_listModify_ne _ (fun h => hjc h.symm)
    · left
      refine ⟨cinfo, pinfo, hcinfo, hpinfo, hcid_mem, ?_, ?_, ?_⟩
      · rw [get?_listModify_self _ hcinfo]
        rfl
      · exact get?_listModify_ne _ (ne_of_gt hcb.1)
      · exact length_listModify _ _ _
  | none =>
    have hfold : ({ id := arena.length, line_index := li, start_index := a,
                    end_index := b, total_count := 0, self_count := 0,
                    width_factor := ⟨0, 1⟩, parent := some p, children := [],
                    level := lvl, hit := false } : StackInfo)
        = freshChild arena.length li a b p lvl := rfl
    have hfresh : (arena ++ [freshChild arena.length li a b p lvl]).get? arena.length
        = some (freshChild arena.length li a b p lvl) :=
      List.get?_concat_length arena _
    have hpne : p ≠ arena.length := Nat.ne_of_lt hp
    have hmod1 : (listModify (arena ++ [freshChild arena.length li a b p lvl]) p
        (fun q => { q with children := q.children ++ [arena.length] })).get? arena.length
        = some (freshChild arena.length li a b p lvl) := by
      rw [get?_listModify_ne _ hpne, hfresh]
    refine ⟨listModify (listModify (arena ++ [freshChild arena.length li a b p lvl]) p
        (fun q => { q with children := q.children ++ [arena.length] })) arena.length
        (fun i => { i with
          total_count := i.total_count + count
          self_count := i.self_count + (if is_self then count else 0) }),
      arena.length, ?_, hp, ?_, ?_, ?_, ?_, ?_⟩
    · unfold FlameGraph.update_one
      simp only [hpinfo, hr, List.length_append, List.length_cons,
        List.length_nil, Nat.add_sub_cancel, hfold]
      rw [hmod1]
    · simp [length_listModify]
    · simp [length_listModify]
    · simp [length_listModify]
    · intro j hjp hjc
      rw [get?_listModify_ne _ (fun h => hjc h.symm),
        get?_listModify_ne _ (fun h => hjp h.symm),
        get?_append_one_ne _ _ hjc]
    · right
      refine ⟨pinfo, rfl, hpinfo, ?_, ?_, ?_⟩
      · rw [get?_listModify_self _ hmod1]
        rfl
      · have hpget : (listModify (arena ++ [freshChild arena.length li a b p lvl]) p
            (fun q => { q with children := q.children ++ [arena.length] })).get? p
            = some { pinfo with children := pinfo.children ++ [arena.length] } := by
          have : (arena ++ [freshChild arena.length li a b p lvl]).get? p = some pinfo := by
            rw [get?_append_one_ne _ _ hpne, hpinfo]
          rw [get?_listModify_self _ this]
        rw [get?_listModify_ne _ (Ne.symm hpne), hpget]
      · simp [length_listModify]

theorem childTotalSum_congr {arena arena' : List StackInfo} {cs : List Nat}
    (h : ∀ c ∈ cs, (arena'.get? c).map (fun s => s.total_count) =
      (arena.get? c).map (fun s => s.total_count)) :
    childTotalSum arena' cs = childTotalSum arena cs := by
  induction cs with
  | nil => rfl
  | cons c rest ih =>
    have hc := h c (List.mem_cons_self c rest)
    have hrest := ih (fun x hx => h x (List.mem_cons_of_mem c hx))
    simp only [childTotalSum, List.map_cons, List.sum_cons] at *
    rw [hc, hrest]

theorem childTotalSum_bump {arena arena' : List StackInfo} {cs : List Nat}
    {cid count : Nat} {cinfo cinfo' : StackInfo}
    (hmem : cid ∈ cs) (hnd : cs.Nodup)
    (hoth : ∀ c ∈ cs, c ≠ cid → (arena'.get? c).map (fun s => s.total_count) =
      (arena.get? c).map (fun s => s.total_count))
    (hc : arena.get? cid = some cinfo) (hc' : arena'.get? cid = some cinfo')
    (ht : cinfo'.total_count = cinfo.total_count + count) :
    childTotalSum arena' cs = childTotalSum arena cs + count := by
  induction cs with
  | nil => cases hmem
  | cons c rest ih =>
    rcases List.mem_cons.mp hmem with hceq | hcrest
    · subst hceq
      have hrest : childTotalSum arena' rest = childTotalSum arena rest := by
        refine childTotalSum_congr (fun x hx => ?_)
        have hxne : x ≠ cid := by
          intro hxc
          subst hxc
          exact (List.nodup_cons.mp hnd).1 hx
        exact hoth x (List.mem_cons_of_mem cid hx) hxne
      simp only [childTotalSum, List.map_cons, List.sum_cons] at *
      rw [hc, hc', hrest] at *
      simp [ht]
      omega
    · have hcne : c ≠ cid := by
        intro hceq
        subst hceq
        exact (List.nodup_cons.mp hnd).1 hcrest
      have hcc := hoth c (List.mem_cons_self c rest) hcne
      have hrest := ih hcrest (List.nodup_cons.mp hnd).2
        (fun x hx hxne => hoth x (List.mem_cons_of_mem c hx) hxne)
      simp only [childTotalSum, List.map_cons, List.sum_cons] at *
      rw [hcc, hrest]
      omega

/-- Transport of the arena invariants along a change that keeps ids,
parent links and children lists (only counts/width/hit may differ). -/
theorem arenaInv_of_get?_congr {arena arena' : List StackInfo}
    (hlen : arena'.length = arena.length)
    (hsame : ∀ j, (arena'.get? j).map (fun s => (s.id, s.parent, s.children)) =
      (arena.get? j).map (fun s => (s.id, s.parent, s.children)))
    (inv : ArenaInv arena) : ArenaInv arena' := by
  have hto : ∀ j info', arena'.get? j = some info' → ∃ info,
      arena.get? j = some info ∧ info'.id = info.id ∧
      info'.parent = info.parent ∧ info'.children = info.children := by
    intro j info' hj
    have := hsame j
    rw [hj] at this
    cases hg : arena.get? j with
    | none => rw [hg] at this; simp at this
    | some info =>
      rw [hg] at this
      simp only [Option.map_some', Option.some.injEq, Prod.mk.injEq] at this
      exact ⟨info, rfl, this.1, this.2.1, this.2.2⟩
  have hfrom : ∀ j info, arena.get? j = some info → ∃ info',
      arena'.get? j = some info' ∧ info'.id = info.id ∧
      info'.parent = info.parent ∧ info'.children = info.children := by
    intro j info hj
    have := hsame j
    rw [hj] at this
    cases hg : arena'.get? j with
    | none => rw [hg] at this; simp at this
    | some info' =>
      rw [hg] at this
      simp only [Option.map_some', Option.some.injEq, Prod.mk.injEq] at this
      exact ⟨info', rfl, this.1, this.2.1, this.2.2⟩
  refine ⟨?_, ?_, ?_, ?_, ?_, ?_, ?_⟩
  · rw [hlen]; exact inv.nonempty
  · intro i info' hi
    obtain ⟨info, hg, hid, _, _⟩ := hto i info' hi
    rw [hid]; exact inv.idOk i info hg
  · intro info' h0
    obtain ⟨info, hg, _, hpar, _⟩ := hto 0 info' h0
    rw [hpar]; exact inv.rootParent info hg
  · intro i info' c hi hc
    obtain ⟨info, hg, _, _, hch⟩ := hto i info' hi
    rw [hch] at hc
    have := inv.childrenBound i info c hg hc
    exact ⟨this.1, by rw [hlen]; exact this.2⟩
  · intro i info' hi
    obtain ⟨info, hg, _, _, hch⟩ := hto i info' hi
    rw [hch]; exact inv.childrenNodup i info hg
  · intro p pinfo' c cinfo' hp hc hcg
    obtain ⟨pinfo, hpg, _, _, hpch⟩ := hto p pinfo' hp
    obtain ⟨cinfo, hcg2, _, hcpar, _⟩ := hto c cinfo' hcg
    rw [hpch] at hc
    rw [hcpar]
    exact inv.parentLink p pinfo c cinfo hpg hc hcg2
  · intro i info' hi hne
    obtain ⟨info, hg, _, hpar, _⟩ := hto i info' hi
    obtain ⟨p, pinfo, hip, hpg, hlt, hmem⟩ := inv.connected i info hg hne
    obtain ⟨pinfo', hpg', _, _, hpch'⟩ := hfrom p pinfo hpg
    exact ⟨p, pinfo', by rw [hpar]; exact hip, hpg', hlt, by rw [hpch']; exact hmem⟩

/-- The arena invariants survive appending a fresh leaf under parent `p`. -/
theorem arenaInv_extend {arena : List StackInfo} {p : Nat} {pinfo : StackInfo}
    (inv : ArenaInv arena) (hp : arena.get? p = some pinfo)
    {arena' : List StackInfo} (hlen : arena'.length = arena.length + 1)
    (hmid : ∀ j, j ≠ p → j ≠ arena.length → arena'.get? j = arena.get? j)
    (hpnew : arena'.get? p = some { pinfo with children := pinfo.children ++ [arena.length] })
    {newinfo : StackInfo}
    (hnew : arena'.get? arena.length = some newinfo)
    (hid : newinfo.id = arena.length) (hpar : newinfo.parent = some p)
    (hch : newinfo.children = []) : ArenaInv arena' := by
  have hplt : p < arena.length := (List.get?_eq_some.mp hp).1
  have hpne : p ≠ arena.length := Nat.ne_of_lt hplt
  have hold : ∀ j info', j ≠ arena.length → arena'.get? j = some info' →
      (j = p ∧ info' = { pinfo with children := pinfo.children ++ [arena.length] }) ∨
      arena.get? j = some info' := by
    intro j info' hjne hj
    by_cases hjp : j = p
    · subst hjp
      rw [hpnew] at hj
      injection hj with h
      exact Or.inl ⟨rfl, h.symm⟩
    · rw [hmid j hjp hjne] at hj
      exact Or.inr hj
  refine ⟨?_, ?_, ?_, ?_, ?_, ?_, ?_⟩
  · rw [hlen]; omega
  · intro i info' hi
    by_cases hin : i = arena.length
    · subst hin
      rw [hnew] at hi
      injection hi with h
      rw [← h]; exact hid
    · rcases hold i info' hin hi with ⟨hip, hinfo⟩ | hg
      · subst hip
        rw [hinfo]
        simpa using inv.idOk i pinfo hp
      · exact inv.idOk i info' hg
  · intro info' h0
    have h0ne : (0 : Nat) ≠ arena.length := by
      have := inv.nonempty
      omega
    rcases hold 0 info' h0ne h0 with ⟨hip, hinfo⟩ | hg
    · rw [hinfo]
      simpa using inv.rootParent pinfo (by rw [← hip] at hp; exact hp)
    · exact inv.rootParent info' hg
  · intro i info' c hi hc
    by_cases hin : i = arena.length
    · subst hin
      rw [hnew] at hi
      injection hi with h
      rw [← h, hch] at hc
      cases hc
    · rcases hold i info' hin hi with ⟨hip, hinfo⟩ | hg
      · subst hip
        rw [hinfo] at hc
        simp only [List.mem_append, List.mem_singleton] at hc
        rcases hc with hc | hc
        · have := inv.childrenBound i pinfo c hp hc
          exact ⟨this.1, by omega⟩
        · subst hc
          exact ⟨hplt, by omega⟩
      · have := inv.childrenBound i info' c hg hc
        exact ⟨this.1, by omega⟩
  · intro i info' hi
    by_cases hin : i = arena.length
    · subst hin
      rw [hnew] at hi
      injection hi with h
      rw [← h, hch]
      exact List.nodup_nil
    · rcases hold i info' hin hi with ⟨hip, hinfo⟩ | hg
      · subst hip
        rw [hinfo]
        simp only []
        rw [List.nodup_append]
        refine ⟨inv.childrenNodup i pinfo hp, List.nodup_singleton _, ?_⟩
        intro x hx hx1
        simp only [List.mem_singleton] at hx1
        subst hx1
        exact absurd (inv.childrenBound i pinfo arena.length hp hx).2 (by omega)
      · exact inv.childrenNodup i info' hg
  · intro q qinfo' c cinfo' hq hc hcg
    by_cases hqn : q = arena.length
    · subst hqn
      rw [hnew] at hq
      injection hq with h
      rw [← h, hch] at hc
      cases hc
    · rcases hold q qinfo' hqn hq with ⟨hqp, hinfo⟩ | hg
      · subst hqp
        rw [hinfo] at hc
        simp only [List.mem_append, List.mem_singleton] at hc
        rcases hc with hc | hc
        · have hclt : c < arena.length := (inv.childrenBound q pinfo c hp hc).2
          have hcne : c ≠ arena.length := Nat.ne_of_lt hclt
          rcases hold c cinfo' hcne hcg with ⟨hcp, hcinfo⟩ | hcold
          · subst hcp
            rw [hcinfo]
            simpa using inv.parentLink c pinfo c pinfo hp hc hp
          · exact inv.parentLink q pinfo c cinfo' hp hc hcold
        · subst hc
          rw [hnew] at hcg
          injection hcg with h2
          rw [← h2]
          exact hpar
      · have hclt : c < arena.length := (inv.childrenBound q qinfo' c hg hc).2
        have hcne : c ≠ arena.length := Nat.ne_of_lt hclt
        rcases hold c cinfo' hcne hcg with ⟨hcp, hcinfo⟩ | hcold
        · subst hcp
          rw [hcinfo]
          simpa using inv.parentLink q qinfo' c pinfo hg hc hp
        · exact inv.parentLink q qinfo' c cinfo' hg hc hcold
  · intro i info' hi hne
    by_cases hin : i = arena.length
    · subst hin
      refine ⟨p, { pinfo with children := pinfo.children ++ [arena.length] },
        ?_, hpnew, hplt, ?_⟩
      · rw [hnew] at hi
        injection hi with h
        rw [← h]; exact hpar
      · simp
    · have hilt : i < arena.length := by
        have h1 := (List.get?_eq_some.mp hi).1
        omega
      have hiold : ∃ infoO, arena.get? i = some infoO ∧
          info'.parent = infoO.parent := by
        rcases hold i info' hin hi with ⟨hip, hinfo⟩ | hg
        · subst hip
          exact ⟨pinfo, hp, by rw [hinfo]⟩
        · exact ⟨info', hg, rfl⟩
      obtain ⟨infoO, hgO, hparEq⟩ := hiold
      obtain ⟨q, qinfo, hiq, hqg, hqlt, hqmem⟩ := inv.connected i infoO hgO hne
      by_cases hqp : q = p
      · have hqg' : arena.get? p = some qinfo := by rw [← hqp]; exact hqg
        have hp' := hp
        rw [hqg'] at hp'
        injection hp' with hqpi
        refine ⟨p, { pinfo with children := pinfo.children ++ [arena.length] },
          by rw [hparEq]; rw [hqp] at hiq; exact hiq, hpnew, by omega, ?_⟩
        simp only [List.mem_append]
        exact Or.inl (by rw [← hqpi]; exact hqmem)
      · have hqne : q ≠ arena.length := by omega
        refine ⟨q, qinfo, by rw [hparEq]; exact hiq, ?_, hqlt, hqmem⟩
        rw [hmid q hqp hqne]
        exact hqg

theorem childTotalSum_append (arena : List StackInfo) (cs : List Nat) (c : Nat) :
    childTotalSum arena (cs ++ [c]) =
      childTotalSum arena cs + ((arena.get? c).map (fun s => s.total_count)).getD 0 := by
  simp [childTotalSum]

/-- One `update_one` step on a well-formed arena with pending excess
`count` at the parent: the invariants survive, the excess moves to the
returned child (fully absorbed there when `is_self`), and every node's
identity fields are untouched. -/
theorem update_one_step (arena : List StackInfo) (content : List Char)
    (count li a b p lvl : Nat) (is_self : Bool)
    (inv : ArenaInv arena) (hp : p < arena.length)
    (hbal : CountBalancedExcept arena p count) :
    ∃ arena' cid,
      FlameGraph.update_one arena content count li a b p lvl is_self =
        some (arena', cid) ∧
      ArenaInv arena' ∧ p < cid ∧ cid < arena'.length ∧
      arena.length ≤ arena'.length ∧
      CountBalancedExcept arena' cid (if is_self then 0 else count) ∧
      (∀ j info, arena.get? j = some info → ∃ info',
        arena'.get? j = some info' ∧
        info'.id = info.id ∧ info'.line_index = info.line_index ∧
        info'.start_index = info.start_index ∧ info'.end_index = info.end_index ∧
        info'.parent = info.parent ∧ info'.level = info.level ∧
        info'.hit = info.hit ∧ info'.width_factor = info.width_factor ∧
        info.total_count ≤ info'.total_count ∧
        (j = 0 → info'.total_count = info.total_count ∧
          info'.self_count = info.self_count)) ∧
      (∀ info', arena'.get? cid = some info' → count ≤ info'.total_count) ∧
      (∀ j, arena.length ≤ j → j < arena'.length → j = cid) := by
  obtain ⟨arena', cid, hupd, hpc, hclt, hlel, hle1, hother, hcase⟩ :=
    update_one_spec arena content count li a b p lvl is_self inv hp
  have hcidne0 : cid ≠ 0 := by omega
  have hnewonly : ∀ j, arena.length ≤ j → j < arena'.length → j = cid := by
    intro j hj1 hj2
    rcases hcase with ⟨_, _, _, _, _, _, _, hlen'⟩ | ⟨pinfo, hcideq, _, _, _, hlen'⟩
    · omega
    · omega
  refine ⟨arena', cid, hupd, ?_, hpc, hclt, hlel, ?_, ?_, ?_, hnewonly⟩
  · -- ArenaInv arena'
    rcases hcase with ⟨cinfo, pinfo, hcid, hpget, hmem, hcid', hpsame, hlen'⟩ |
      ⟨pinfo, hcideq, hpget, hcid', hpnew', hlen'⟩
    · refine arenaInv_of_get?_congr hlen' (fun j => ?_) inv
      by_cases hj : j = cid
      · subst hj
        rw [hcid, hcid']
        rfl
      · by_cases hjp : j = p
        · subst hjp
          rw [hpsame]
        · rw [hother j hjp hj]
    · subst hcideq
      exact arenaInv_extend inv hpget hlen' hother hpnew' hcid' rfl rfl rfl
  · -- balance with the excess moved to the child
    rcases hcase with ⟨cinfo, pinfo, hcid, hpget, hmem, hcid', hpsame, hlen'⟩ |
      ⟨pinfo, hcideq, hpget, hcid', hpnew', hlen'⟩
    · intro i info' hi'
      by_cases hic : i = cid
      · -- the bumped child: `subst` eliminates `cid` in favour of `i`
        subst hic
        rw [hcid'] at hi'
        injection hi' with h
        subst h
        have hCS : childTotalSum arena' cinfo.children =
            childTotalSum arena cinfo.children := by
          refine childTotalSum_congr (fun c hc => ?_)
          have hcb := inv.childrenBound i cinfo c hcid hc
          rw [hother c (by omega) (by omega)]
        have hb := hbal i cinfo hcid
        rw [if_neg (by omega : ¬ i = p)] at hb
        simp only [bumpCounts, hCS, if_pos rfl]
        cases is_self <;> simp <;> omega
      · by_cases hip : i = p
        · -- the parent regains balance: `subst` eliminates `p` in favour of `i`
          subst hip
          rw [hpsame, hpget] at hi'
          injection hi' with h
          subst h
          have hCS : childTotalSum arena' pinfo.children =
              childTotalSum arena pinfo.children + count := by
            refine childTotalSum_bump hmem (inv.childrenNodup i pinfo hpget)
              ?_ hcid hcid' (by simp [bumpCounts])
            intro c hc hcne
            have hcb := inv.childrenBound i pinfo c hpget hc
            rw [hother c (by omega) hcne]
          have hb := hbal i pinfo hpget
          rw [if_pos rfl] at hb
          rw [hCS, if_neg hic]
          omega
        · rw [hother i hip hic] at hi'
          have hb := hbal i info' hi'
          have hCS : childTotalSum arena' info'.children =
              childTotalSum arena info'.children := by
            refine childTotalSum_congr (fun c hc => ?_)
            have hcb := inv.childrenBound i info' c hi' hc
            by_cases hcp : c = p
            · subst hcp
              rw [hpsame]
            · have hccid : c ≠ cid := by
                intro hceq
                subst hceq
                have h1 := inv.parentLink i info' c cinfo hi' hc hcid
                have h2 := inv.parentLink p pinfo c cinfo hpget hmem hcid
                rw [h1] at h2
                injection h2 with h3
                exact hip h3
              rw [hother c hcp hccid]
          rw [hCS, if_neg hic]
          rw [if_neg hip] at hb
          omega
    · subst hcideq
      intro i info' hi'
      by_cases hic : i = arena.length
      · subst hic
        rw [hcid'] at hi'
        injection hi' with h
        subst h
        simp only [bumpCounts, freshChild, childTotalSum, List.map_nil,
          List.sum_nil, if_pos rfl]
        cases is_self <;> simp
      · by_cases hip : i = p
        · -- `subst` eliminates `p` in favour of `i`
          subst hip
          rw [hpnew'] at hi'
          injection hi' with h
          subst h
          have hCSold : childTotalSum arena' pinfo.children =
              childTotalSum arena pinfo.children := by
            refine childTotalSum_congr (fun c hc => ?_)
            have hcb := inv.childrenBound i pinfo c hpget hc
            rw [hother c (by omega) (by omega)]
          have hb := hbal i pinfo hpget
          rw [if_pos rfl] at hb
          simp only [childTotalSum_append, hCSold, hcid']
          rw [if_neg hic]
          simp only [bumpCounts, freshChild, Option.map_some', Option.getD_some]
          omega
        · rw [hother i hip hic] at hi'
          have hb := hbal i info' hi'
          have hCS : childTotalSum arena' info'.children =
              childTotalSum arena info'.children := by
            refine childTotalSum_congr (fun c hc => ?_)
            have hcb := inv.childrenBound i info' c hi' hc
            by_cases hcp : c = p
            · subst hcp
              rw [hpnew', hpget]
              rfl
            · rw [hother c hcp (by omega)]
          rw [hCS, if_neg hic]
          rw [if_neg hip] at hb
          omega
  · -- identity fields survive
    rcases hcase with ⟨cinfo, pinfo, hcid, hpget, hmem, hcid', hpsame, hlen'⟩ |
      ⟨pinfo, hcideq, hpget, hcid', hpnew', hlen'⟩
    · intro j info hj
      by_cases hjc : j = cid
      · -- `subst` eliminates `cid` in favour of `j`
        subst hjc
        rw [hcid] at hj
        injection hj with h
        subst h
        refine ⟨bumpCounts count is_self cinfo, hcid',
          ?_, ?_, ?_, ?_, ?_, ?_, ?_, ?_, ?_, ?_⟩
        all_goals simp [bumpCounts]
        omega
      · by_cases hjp : j = p
        · refine ⟨info, ?_, rfl, rfl, rfl, rfl, rfl, rfl, rfl, rfl, le_refl _,
            fun _ => ⟨rfl, rfl⟩⟩
          rw [hjp, hpsame, ← hjp]
          exact hj
        · refine ⟨info, ?_, rfl, rfl, rfl, rfl, rfl, rfl, rfl, rfl, le_refl _,
            fun _ => ⟨rfl, rfl⟩⟩
          rw [hother j hjp hjc]
          exact hj
    · subst hcideq
      intro j info hj
      have hjlt : j < arena.length := (List.get?_eq_some.mp hj).1
      by_cases hjp : j = p
      · -- `subst` eliminates `p` in favour of `j`
        subst hjp
        rw [hpget] at hj
        injection hj with h
        subst h
        refine ⟨{ pinfo with children := pinfo.children ++ [arena.length] },
          hpnew', ?_, ?_, ?_, ?_, ?_, ?_, ?_, ?_, ?_, ?_⟩
        all_goals simp
      · refine ⟨info, ?_, rfl, rfl, rfl, rfl, rfl, rfl, rfl, rfl, le_refl _,
          fun _ => ⟨rfl, rfl⟩⟩
        rw [hother j hjp (by omega)]
        exact hj
  · -- the child absorbed at least `count`
    rcases hcase with ⟨cinfo, pinfo, hcid, hpget, hmem, hcid', hpsame, hlen'⟩ |
      ⟨pinfo, hcideq, hpget, hcid', hpnew', hlen'⟩
    · intro info' hi'
      rw [hcid'] at hi'
      injection hi' with h
      subst h
      simp [bumpCounts]
    · subst hcideq
      intro info' hi'
      rw [hcid'] at hi'
      injection hi' with h
      subst h
      simp [bumpCounts, freshChild]

/-- The walk over one accepted line's segments preserves the invariants,
restores full balance (the trailing segment absorbs the excess into its
self count), never shrinks the arena, keeps every existing node's identity
fields and the root's counts, and gives every node created on the way a
total of at least `count`. -/
theorem processSegs_spec (content : List Char) (count li : Nat) :
    ∀ (segs : List (Nat × Nat)) (arena : List StackInfo) (p lvl : Nat),
    ArenaInv arena → p < arena.length → CountBalancedExcept arena p count →
    segs ≠ [] →
    ∃ arena',
      FlameGraph.processSegs content count li segs arena p lvl = some arena' ∧
      ArenaInv arena' ∧ CountBalanced arena' ∧
      arena.length ≤ arena'.length ∧
      (∀ j info, arena.get? j = some info → ∃ info',
        arena'.get? j = some info' ∧ FieldsEq info' info ∧
        info.total_count ≤ info'.total_count ∧
        (j = 0 → info'.total_count = info.total_count ∧
          info'.self_count = info.self_count)) ∧
      (∀ j info', arena'.get? j = some info' → arena.length ≤ j →
        count ≤ info'.total_count) := by
  intro segs
  induction segs with
  | nil => intro arena p lvl _ _ _ hne; exact absurd rfl hne
  | cons ab rest ih =>
    obtain ⟨a, b⟩ := ab
    intro arena p lvl inv hp hbal _
    cases rest with
    | nil =>
      obtain ⟨arena', cid, hupd, inv', hpc, hclt, hlel, hbal', hfields, hcnt, hnew⟩ :=
        update_one_step arena content count li a b p lvl true inv hp hbal
      refine ⟨arena', ?_, inv', ?_, hlel, ?_, ?_⟩
      · show (FlameGraph.update_one arena content count li a b p lvl true).map
          (fun r => r.1) = some arena'
        rw [hupd]
        rfl
      · intro i info hi
        have := hbal' i info hi
        simpa using this
      · intro j info hj
        obtain ⟨info', hg', hid, hline, hstart, hend, hpar, hlev, hhit, hwf,
          hmono, hroot⟩ := hfields j info hj
        exact ⟨info', hg', ⟨hid, hline, hstart, hend, hpar, hlev, hhit, hwf⟩,
          hmono, hroot⟩
      · intro j info' hj' hjge
        have hjlt : j < arena'.length := (List.get?_eq_some.mp hj').1
        have := hnew j hjge hjlt
        subst this
        exact hcnt info' hj'
    | cons ab2 rest2 =>
      obtain ⟨arena1, cid, hupd, inv1, hpc, hclt, hlel1, hbal1, hfields1,
        hcnt1, hnew1⟩ :=
        update_one_step arena content count li a b p lvl false inv hp hbal
      have hbal1' : CountBalancedExcept arena1 cid count := by
        simpa using hbal1
      obtain ⟨arena', hrun, inv', hbal', hlel2, hfields2, hcnt2⟩ :=
        ih arena1 cid (lvl + 1) inv1 hclt hbal1' (by simp)
      refine ⟨arena', ?_, inv', hbal', by omega, ?_, ?_⟩
      · show (match FlameGraph.update_one arena content count li a b p lvl false with
          | none => none
          | some (stacks1, sid) =>
            FlameGraph.processSegs content count li (ab2 :: rest2) stacks1 sid (lvl + 1))
          = some arena'
        rw [hupd]
        exact hrun
      · intro j info hj
        obtain ⟨info1, hg1, hid1, hline1, hstart1, hend1, hpar1, hlev1, hhit1,
          hwf1, hmono1, hroot1⟩ := hfields1 j info hj
        obtain ⟨info', hg', hfe2, hmono2, hroot2⟩ := hfields2 j info1 hg1
        obtain ⟨hid2, hline2, hstart2, hend2, hpar2, hlev2, hhit2, hwf2⟩ := hfe2
        refine ⟨info', hg', ⟨?_, ?_, ?_, ?_, ?_, ?_, ?_, ?_⟩, by omega, ?_⟩
        · rw [hid2, hid1]
        · rw [hline2, hline1]
        · rw [hstart2, hstart1]
        · rw [hend2, hend1]
        · rw [hpar2, hpar1]
        · rw [hlev2, hlev1]
        · rw [hhit2, hhit1]
        · rw [hwf2, hwf1]
        · intro h0
          obtain ⟨ht1, hs1⟩ := hroot1 h0
          obtain ⟨ht2, hs2⟩ := hroot2 h0
          exact ⟨by omega, by rw [hs2, hs1]⟩
      · intro j info' hj' hjge
        by_cases hj1 : arena1.length ≤ j
        · exact hcnt2 j info' hj' hj1
        · push_neg at hj1
          have hjcid : j = cid := hnew1 j hjge hj1
          subst hjcid
          obtain ⟨cinfo1, hcg1⟩ : ∃ x, arena1.get? j = some x := by
            refine ⟨arena1.get ⟨j, hj1⟩, List.get?_eq_get hj1⟩
          have hc1 := hcnt1 cinfo1 hcg1
          obtain ⟨info2, hg2, _, hmono2, _⟩ := hfields2 j cinfo1 hcg1
          rw [hj'] at hg2
          injection hg2 with h
          rw [h]
          omega

theorem segChunksAux_ne_nil (s : List Char) (x y : Nat) :
    segChunksAux s x y ≠ [] := by
  induction s generalizing x y with
  | nil => simp [segChunksAux]
  | cons c rest ih =>
    by_cases hc : c = ';'
    · simp [segChunksAux, hc]
    · simp only [segChunksAux, if_neg hc]
      exact ih x (y + 1)

/-- Bumping the root total (the `stacks[ROOT_ID].total_count += count`
statement) keeps the invariants and leaves an excess `c` at the root. -/
theorem root_bump_spec (arena : List StackInfo) (c : Nat)
    (inv : ArenaInv arena) (hbal : CountBalanced arena)
    (rinfo : StackInfo) (hroot0 : arena.get? 0 = some rinfo) :
    ArenaInv (listModify arena ROOT_ID (fun r =>
      { r with total_count := r.total_count + c })) ∧
    CountBalancedExcept (listModify arena ROOT_ID (fun r =>
      { r with total_count := r.total_count + c })) 0 c ∧
    (listModify arena ROOT_ID (fun r =>
      { r with total_count := r.total_count + c })).length = arena.length ∧
    (listModify arena ROOT_ID (fun r =>
      { r with total_count := r.total_count + c })).get? 0 =
      some { rinfo with total_count := rinfo.total_count + c } ∧
    (∀ j, j ≠ 0 → (listModify arena ROOT_ID (fun r =>
      { r with total_count := r.total_count + c })).get? j = arena.get? j) := by
  simp only [ROOT_ID]
  have h0get := get?_listModify_self
    (fun r : StackInfo => { r with total_count := r.total_count + c }) hroot0
  have h0ne : ∀ j, j ≠ 0 → (listModify arena 0 (fun r =>
      { r with total_count := r.total_count + c })).get? j = arena.get? j :=
    fun j hj => get?_listModify_ne _ (fun h => hj h.symm)
  have hlen0 := length_listModify arena 0
    (fun r : StackInfo => { r with total_count := r.total_count + c })
  refine ⟨?_, ?_, hlen0, h0get, h0ne⟩
  · refine arenaInv_of_get?_congr hlen0 (fun j => ?_) inv
    by_cases hj : j = 0
    · subst hj
      rw [h0get, hroot0]
      rfl
    · rw [h0ne j hj]
  · intro i info0 hi0
    have hCS : childTotalSum (listModify arena 0 (fun r =>
        { r with total_count := r.total_count + c })) info0.children =
        childTotalSum arena info0.children := by
      refine childTotalSum_congr (fun x hx => ?_)
      have hxb : 0 < x := by
        by_cases hi00 : i = 0
        · subst hi00
          rw [h0get] at hi0
          injection hi0 with h
          have := inv.childrenBound 0 rinfo x hroot0 (by rw [← h] at hx; exact hx)
          omega
        · rw [h0ne i hi00] at hi0
          have := inv.childrenBound i info0 x hi0 hx
          omega
      rw [h0ne x (by omega)]
    by_cases hi00 : i = 0
    · subst hi00
      rw [h0get] at hi0
      injection hi0 with h
      subst h
      rw [hCS, if_pos rfl]
      have hb := hbal 0 rinfo hroot0
      show rinfo.total_count + c =
        rinfo.self_count + childTotalSum arena rinfo.children + c
      omega
    · rw [h0ne i hi00] at hi0
      rw [hCS, if_neg hi00]
      exact hbal i info0 hi0

/-- The line loop of `from_string` keeps the invariants and full balance,
adds exactly the accepted counts to the root total (and nothing to its
self count), and keeps every node's identity fields. -/
theorem processLines_spec (content : List Char) :
    ∀ (lines : List (Nat × List Char)) (arena : List StackInfo),
    ArenaInv arena → CountBalanced arena →
    ∃ arena',
      FlameGraph.processLines content lines arena = some arena' ∧
      ArenaInv arena' ∧ CountBalanced arena' ∧
      arena.length ≤ arena'.length ∧
      (∀ j info, arena.get? j = some info → ∃ info',
        arena'.get? j = some info' ∧ FieldsEq info' info ∧
        info.total_count ≤ info'.total_count ∧
        (j = 0 → info'.total_count = info.total_count + acceptedSum lines ∧
          info'.self_count = info.self_count)) ∧
      (PosCounts lines → PosTotals arena → PosTotals arena') := by
  intro lines
  induction lines with
  | nil =>
    intro arena inv hbal
    refine ⟨arena, rfl, inv, hbal, le_refl _, ?_, fun _ h => h⟩
    intro j info hj
    exact ⟨info, hj, ⟨rfl, rfl, rfl, rfl, rfl, rfl, rfl, rfl⟩, le_refl _,
      fun _ => ⟨by simp [acceptedSum], rfl⟩⟩
  | cons pl rest ih =>
    obtain ⟨pos, line⟩ := pl
    intro arena inv hbal
    cases hparse : parseLine line with
    | none =>
      obtain ⟨arena', hrun, inv', hbal', hlen, hfields, hpos⟩ := ih arena inv hbal
      refine ⟨arena', ?_, inv', hbal', hlen, ?_, ?_⟩
      · simp only [FlameGraph.processLines, hparse]
        exact hrun
      · intro j info hj
        obtain ⟨info', hg', hfe, hmono, hroot⟩ := hfields j info hj
        refine ⟨info', hg', hfe, hmono, fun h0 => ?_⟩
        obtain ⟨ht, hs⟩ := hroot h0
        refine ⟨?_, hs⟩
        simp [acceptedSum, acceptedCount, hparse] at *
        omega
      · intro hpc
        exact hpos (fun q hq path c hpc2 hh =>
          hpc q (List.mem_cons_of_mem _ hq) path c hpc2 hh)
    | some pc =>
      obtain ⟨path, c⟩ := pc
      by_cases hhash : line.head? = some '#'
      · obtain ⟨arena', hrun, inv', hbal', hlen, hfields, hpos⟩ := ih arena inv hbal
        refine ⟨arena', ?_, inv', hbal', hlen, ?_, ?_⟩
        · simp only [FlameGraph.processLines, hparse, hhash, if_pos]
          exact hrun
        · intro j info hj
          obtain ⟨info', hg', hfe, hmono, hroot⟩ := hfields j info hj
          refine ⟨info', hg', hfe, hmono, fun h0 => ?_⟩
          obtain ⟨ht, hs⟩ := hroot h0
          refine ⟨?_, hs⟩
          simp [acceptedSum, acceptedCount, hparse, hhash] at *
          omega
        · intro hpc
          exact hpos (fun q hq path2 c2 hpc2 hh =>
            hpc q (List.mem_cons_of_mem _ hq) path2 c2 hpc2 hh)
      · -- accepted line
        obtain ⟨rinfo, hroot0⟩ : ∃ x, arena.get? 0 = some x := by
          refine ⟨arena.get ⟨0, inv.nonempty⟩, List.get?_eq_get inv.nonempty⟩
        obtain ⟨inv0, hbal0, hlen0, h0get, h0ne⟩ :=
          root_bump_spec arena c inv hbal rinfo hroot0
        obtain ⟨arena1, hrun1, inv1, hbal1, hlen1, hfields1, hcnt1⟩ :=
          processSegs_spec content c pos (segChunks path pos)
            (listModify arena ROOT_ID (fun r =>
              { r with total_count := r.total_count + c })) ROOT_ID 1
            inv0 (by rw [hlen0]; exact inv.nonempty)
            hbal0 (segChunksAux_ne_nil path pos pos)
        obtain ⟨arena', hrun2, inv', hbal', hlen2, hfields2, hpos2⟩ :=
          ih arena1 inv1 hbal1
        refine ⟨arena', ?_, inv', hbal', by omega, ?_, ?_⟩
        · simp only [FlameGraph.processLines, hparse, hhash, if_neg,
            Bool.false_eq_true]
          rw [hrun1]
          exact hrun2
        · intro j info hj
          have hstep : ∃ info0, (listModify arena ROOT_ID (fun r =>
              { r with total_count := r.total_count + c })).get? j = some info0 ∧
              FieldsEq info0 info ∧ info.total_count ≤ info0.total_count ∧
              (j = 0 → info0.total_count = info.total_count + c ∧
                info0.self_count = info.self_count) := by
            by_cases hj0 : j = 0
            · subst hj0
              rw [hroot0] at hj
              injection hj with h
              subst h
              exact ⟨{ rinfo with total_count := rinfo.total_count + c }, h0get,
                ⟨rfl, rfl, rfl, rfl, rfl, rfl, rfl, rfl⟩,
                by simp, fun _ => ⟨rfl, rfl⟩⟩
            · exact ⟨info, by rw [h0ne j hj0]; exact hj,
                ⟨rfl, rfl, rfl, rfl, rfl, rfl, rfl, rfl⟩, le_refl _,
                fun h0 => absurd h0 hj0⟩
          obtain ⟨info0, hg0, hfe0, hmono0, hroot00⟩ := hstep
          obtain ⟨info1, hg1, hfe1, hmono1, hroot01⟩ := hfields1 j info0 hg0
          obtain ⟨info', hg', hfe2, hmono2, hroot02⟩ := hfields2 j info1 hg1
          refine ⟨info', hg', ?_, by omega, ?_⟩
          · obtain ⟨a1, a2, a3, a4, a5, a6, a7, a8⟩ := hfe0
            obtain ⟨b1, b2, b3, b4, b5, b6, b7, b8⟩ := hfe1
            obtain ⟨c1, c2, c3, c4, c5, c6, c7, c8⟩ := hfe2
            exact ⟨by rw [c1, b1, a1], by rw [c2, b2, a2], by rw [c3, b3, a3],
              by rw [c4, b4, a4], by rw [c5, b5, a5], by rw [c6, b6, a6],
              by rw [c7, b7, a7], by rw [c8, b8, a8]⟩
          · intro h0
            obtain ⟨t0, s0⟩ := hroot00 h0
            obtain ⟨t1, s1⟩ := hroot01 h0
            obtain ⟨t2, s2⟩ := hroot02 h0
            refine ⟨?_, by rw [s2, s1, s0]⟩
            have hacc : acceptedSum ((pos, line) :: rest) =
                c + acceptedSum rest := by
              simp [acceptedSum, acceptedCount, hparse, hhash]
            rw [hacc]
            omega
        · intro hpc hptot
          have hc1 : 1 ≤ c := hpc (pos, line) (List.mem_cons_self _ _) path c
            hparse hhash
          have hpt0 : PosTotals (listModify arena ROOT_ID (fun r =>
              { r with total_count := r.total_count + c })) := by
            intro j info0 hj0 hjne
            rw [h0ne j hjne] at hj0
            exact hptot j info0 hj0 hjne
          have hpt1 : PosTotals arena1 := by
            intro j info1 hj1 hjne
            by_cases hjold : j < (listModify arena ROOT_ID (fun r : StackInfo =>
                { r with total_count := r.total_count + c })).length
            · obtain ⟨info0, hg0⟩ : ∃ x, (listModify arena ROOT_ID
                  (fun r : StackInfo =>
                    { r with total_count := r.total_count + c })).get? j = some x :=
                ⟨_, List.get?_eq_get hjold⟩
              obtain ⟨info1', hg1', _, hmono, _⟩ := hfields1 j info0 hg0
              rw [hj1] at hg1'
              injection hg1' with h
              have := hpt0 j info0 hg0 hjne
              rw [h]
              omega
            · push_neg at hjold
              have := hcnt1 j info1 hj1 hjold
              omega
          exact hpos2 (fun q hq path2 c2 hpc2 hh =>
            hpc q (List.mem_cons_of_mem _ hq) path2 c2 hpc2 hh) hpt1

theorem rootInfo_arena_inv : ArenaInv [FlameGraph.rootInfo] := by
  refine ⟨by simp, ?_, ?_, ?_, ?_, ?_, ?_⟩
  · intro i info hi
    cases i with
    | zero =>
      injection hi with h
      rw [← h]
      rfl
    | succ n => simp [List.get?] at hi
  · intro info h0
    injection h0 with h
    rw [← h]
    rfl
  · intro i info ch hi hc
    cases i with
    | zero =>
      injection hi with h
      rw [← h] at hc
      cases hc
    | succ n => simp [List.get?] at hi
  · intro i info hi
    cases i with
    | zero =>
      injection hi with h
      rw [← h]
      exact List.nodup_nil
    | succ n => simp [List.get?] at hi
  · intro p pinfo ch cinfo hp hc hcg
    cases p with
    | zero =>
      injection hp with h
      rw [← h] at hc
      cases hc
    | succ n => simp [List.get?] at hp
  · intro i info hi hne
    cases i with
    | zero => exact absurd rfl hne
    | succ n => simp [List.get?] at hi

theorem rootInfo_balanced : CountBalanced [FlameGraph.rootInfo] := by
  intro i info hi
  cases i with
  | zero =>
    injection hi with h
    rw [← h]
    rfl
  | succ n => simp [List.get?] at hi

/-- The parsing phase of `from_string`: it always succeeds, the arena is
well formed and fully balanced, and the root carries exactly the sum of
the accepted counts with a zero self count and zero string indices. -/
theorem from_string_stacks_spec (content0 : List Char) :
    ∃ arena',
      FlameGraph.from_string_stacks content0 =
        some (FlameGraph.normalizeNL content0, arena') ∧
      ArenaInv arena' ∧ CountBalanced arena' ∧
      (∃ rinfo, arena'.get? 0 = some rinfo ∧
        rinfo.total_count =
          acceptedSum (lineChunks (FlameGraph.normalizeNL content0)) ∧
        rinfo.self_count = 0 ∧ rinfo.start_index = 0 ∧ rinfo.end_index = 0 ∧
        rinfo.parent = none ∧ rinfo.level = 0 ∧ rinfo.line_index = 0) ∧
      (PosCounts (lineChunks (FlameGraph.normalizeNL content0)) →
        PosTotals arena') := by
  obtain ⟨arena', hrun, inv', hbal', hlen, hfields, hpos⟩ :=
    processLines_spec (FlameGraph.normalizeNL content0)
      (lineChunks (FlameGraph.normalizeNL content0)) [FlameGraph.rootInfo]
      rootInfo_arena_inv rootInfo_balanced
  refine ⟨arena', ?_, inv', hbal', ?_, ?_⟩
  · simp only [FlameGraph.from_string_stacks]
    rw [hrun]
    rfl
  · obtain ⟨rinfo, hg, hfe, _, hroot⟩ := hfields 0 FlameGraph.rootInfo rfl
    obtain ⟨ht, hs⟩ := hroot rfl
    obtain ⟨_, hline, hstart, hend, hpar, hlev, _, _⟩ := hfe
    exact ⟨rinfo, hg, by simpa [FlameGraph.rootInfo] using ht,
      by simpa [FlameGraph.rootInfo] using hs,
      by simpa [FlameGraph.rootInfo] using hstart,
      by simpa [FlameGraph.rootInfo] using hend,
      by simpa [FlameGraph.rootInfo] using hpar,
      by simpa [FlameGraph.rootInfo] using hlev,
      by simpa [FlameGraph.rootInfo] using hline⟩
  · intro hpc
    refine hpos hpc ?_
    intro j info hj hjne
    cases j with
    | zero => exact absurd rfl hjne
    | succ n => simp [List.get?] at hj

theorem Reach.le {arena : List StackInfo} (inv : ArenaInv arena) {i j : Nat}
    (h : Reach arena i j) : i ≤ j := by
  induction h with
  | refl => exact le_refl _
  | step hr hg hm ih =>
    have := (inv.childrenBound _ _ _ hg hm).1
    omega

theorem Reach.lt_length {arena : List StackInfo} (inv : ArenaInv arena)
    {i j : Nat} (h : Reach arena i j) (hi : i < arena.length) :
    j < arena.length := by
  induction h with
  | refl => exact hi
  | step hr hg hm ih => exact (inv.childrenBound _ _ _ hg hm).2

theorem Reach.trans {arena : List StackInfo} {i j k : Nat}
    (h1 : Reach arena i j) (h2 : Reach arena j k) : Reach arena i k := by
  induction h2 with
  | refl => exact h1
  | step hr hg hm ih => exact Reach.step ih hg hm

theorem Reach.child {arena : List StackInfo} {i c : Nat} {info : StackInfo}
    (hg : arena.get? i = some info) (hm : c ∈ info.children) :
    Reach arena i c :=
  Reach.step (Reach.refl i) hg hm

/-- A nontrivial reach enters through some child of the start node. -/
theorem Reach.down_split {arena : List StackInfo} {i k : Nat}
    (h : Reach arena i k) : i = k ∨ ∃ info c, arena.get? i = some info ∧
      c ∈ info.children ∧ Reach arena c k := by
  induction h with
  | refl => exact Or.inl rfl
  | step hr hg hm ih =>
    rcases ih with heq | ⟨info, c, hgi, hc, hrc⟩
    · subst heq
      exact Or.inr ⟨_, _, hg, hm, Reach.refl _⟩
    · exact Or.inr ⟨info, c, hgi, hc, Reach.step hrc hg hm⟩

/-- A nontrivial reach exits through the parent of the end node. -/
theorem Reach.up_split {arena : List StackInfo} (inv : ArenaInv arena)
    {b x : Nat} (h : Reach arena b x) (hne : b ≠ x) :
    ∃ p xinfo, arena.get? x = some xinfo ∧ xinfo.parent = some p ∧
      Reach arena b p ∧ p < x := by
  induction h with
  | refl => exact absurd rfl hne
  | step hr hg hm ih =>
    rename_i j k info
    have hkb := (inv.childrenBound _ _ _ hg hm)
    obtain ⟨kinfo, hkg⟩ : ∃ y, arena.get? k = some y :=
      ⟨arena.get ⟨k, hkb.2⟩, List.get?_eq_get hkb.2⟩
    exact ⟨j, kinfo, hkg, inv.parentLink j info k kinfo hg hm hkg, hr, hkb.1⟩

/-- Two ancestors of the same node are comparable (the arena is a forest). -/
theorem Reach.linear {arena : List StackInfo} (inv : ArenaInv arena) :
    ∀ x a b, Reach arena a x → Reach arena b x →
      Reach arena a b ∨ Reach arena b a := by
  intro x
  induction x using Nat.strong_induction_on with
  | _ x ih =>
    intro a b ha hb
    by_cases hax : a = x
    · subst hax
      exact Or.inr hb
    · by_cases hbx : b = x
      · subst hbx
        exact Or.inl ha
      · obtain ⟨p, xinfo, hxg, hxp, hap, hplt⟩ := ha.up_split inv hax
        obtain ⟨q, xinfo2, hxg2, hxq, hbq, hqlt⟩ := hb.up_split inv hbx
        rw [hxg] at hxg2
        injection hxg2 with h2
        rw [← h2] at hxq
        rw [hxp] at hxq
        injection hxq with h3
        rw [← h3] at hbq
        exact ih p hplt a b hap hbq

/-- Subtrees of distinct siblings are disjoint. -/
theorem sibling_disjoint {arena : List StackInfo} (inv : ArenaInv arena)
    {i c1 c2 x : Nat} {info : StackInfo} (hg : arena.get? i = some info)
    (h1 : c1 ∈ info.children) (h2 : c2 ∈ info.children) (hne : c1 ≠ c2)
    (hr1 : Reach arena c1 x) (hr2 : Reach arena c2 x) : False := by
  have hlin := Reach.linear inv x c1 c2 hr1 hr2
  have hb1 := inv.childrenBound _ _ _ hg h1
  have hb2 := inv.childrenBound _ _ _ hg h2
  rcases hlin with hr | hr
  · obtain ⟨p, cinfo, hcg, hcp, hrp, hplt⟩ := hr.up_split inv hne
    obtain ⟨c2info, hc2g⟩ : ∃ y, arena.get? c2 = some y :=
      ⟨arena.get ⟨c2, hb2.2⟩, List.get?_eq_get hb2.2⟩
    rw [hc2g] at hcg
    injection hcg with hh
    rw [← hh] at hcp
    rw [inv.parentLink i info c2 c2info hg h2 hc2g] at hcp
    injection hcp with hh2
    rw [← hh2] at hrp
    have := hrp.le inv
    omega
  · obtain ⟨p, cinfo, hcg, hcp, hrp, hplt⟩ := hr.up_split inv (Ne.symm hne)
    obtain ⟨c1info, hc1g⟩ : ∃ y, arena.get? c1 = some y :=
      ⟨arena.get ⟨c1, hb1.2⟩, List.get?_eq_get hb1.2⟩
    rw [hc1g] at hcg
    injection hcg with hh
    rw [← hh] at hcp
    rw [inv.parentLink i info c1 c1info hg h1 hc1g] at hcp
    injection hcp with hh2
    rw [← hh2] at hrp
    have := hrp.le inv
    omega

/-- Reachability only depends on the children lists up to membership. -/
theorem Reach.mono {arena arena' : List StackInfo}
    (h : ∀ j info, arena.get? j = some info → ∃ info',
      arena'.get? j = some info' ∧ ∀ x, x ∈ info.children → x ∈ info'.children)
    {i j : Nat} (hr : Reach arena i j) : Reach arena' i j := by
  induction hr with
  | refl => exact Reach.refl _
  | step hr hg hm ih =>
    obtain ⟨info', hg', hmem⟩ := h _ _ hg
    exact Reach.step ih hg' (hmem _ hm)

/-! ### The child sort: permutation and key-congruence facts -/

theorem insertAscBy_perm (key : Nat → Nat) (x : Nat) (l : List Nat) :
    (FlameGraph.insertAscBy key x l).Perm (x :: l) := by
  induction l with
  | nil => exact List.Perm.refl _
  | cons y ys ih =>
    by_cases h : key y < key x
    · simp only [FlameGraph.insertAscBy, if_pos h]
      exact (List.Perm.cons y ih).trans (List.Perm.swap x y ys)
    · simp only [FlameGraph.insertAscBy, if_neg h]
      exact List.Perm.refl _

theorem sortByKeyAsc_perm (key : Nat → Nat) (l : List Nat) :
    (FlameGraph.sortByKeyAsc key l).Perm l := by
  induction l with
  | nil => exact List.Perm.refl _
  | cons x xs ih =>
    exact (insertAscBy_perm key x _).trans (List.Perm.cons x ih)

theorem sortIf_perm (sorted : Bool) (arena : List StackInfo) (cs : List Nat) :
    (FlameGraph.sortIf sorted arena cs).Perm cs := by
  unfold FlameGraph.sortIf
  by_cases h : sorted = true
  · simp only [h, if_pos]
    exact (List.reverse_perm _).trans (sortByKeyAsc_perm _ cs)
  · simp only [h]
    simp at h
    simp [h]

theorem mem_sortIf {sorted : Bool} {arena : List StackInfo} {cs : List Nat}
    {x : Nat} : x ∈ FlameGraph.sortIf sorted arena cs ↔ x ∈ cs :=
  (sortIf_perm sorted arena cs).mem_iff

theorem nodup_sortIf {sorted : Bool} {arena : List StackInfo} {cs : List Nat}
    (h : cs.Nodup) : (FlameGraph.sortIf sorted arena cs).Nodup :=
  ((sortIf_perm sorted arena cs).nodup_iff).mpr h

theorem insertAscBy_congr {k1 k2 : Nat → Nat} {x : Nat} {l : List Nat}
    (hx : k1 x = k2 x) (hl : ∀ y ∈ l, k1 y = k2 y) :
    FlameGraph.insertAscBy k1 x l = FlameGraph.insertAscBy k2 x l := by
  induction l with
  | nil => rfl
  | cons y ys ih =>
    have hy := hl y (List.mem_cons_self y ys)
    have hys := fun z hz => hl z (List.mem_cons_of_mem y hz)
    simp only [FlameGraph.insertAscBy, hy, hx]
    by_cases h : k2 y < k2 x
    · simp only [if_pos h, ih hys]
    · simp only [if_neg h]

theorem sortByKeyAsc_congr {k1 k2 : Nat → Nat} {l : List Nat}
    (hl : ∀ y ∈ l, k1 y = k2 y) :
    FlameGraph.sortByKeyAsc k1 l = FlameGraph.sortByKeyAsc k2 l := by
  induction l with
  | nil => rfl
  | cons x xs ih =>
    have hx := hl x (List.mem_cons_self x xs)
    have hxs := fun z hz => hl z (List.mem_cons_of_mem x hz)
    simp only [FlameGraph.sortByKeyAsc, ih hxs]
    refine insertAscBy_congr hx (fun y hy => ?_)
    have := (sortByKeyAsc_perm k2 xs).mem_iff.mp hy
    exact hxs y this

theorem sortIf_congr {sorted : Bool} {arena arena' : List StackInfo}
    {cs : List Nat}
    (h : ∀ c ∈ cs, FlameGraph.keyTotal arena' c = FlameGraph.keyTotal arena c) :
    FlameGraph.sortIf sorted arena' cs = FlameGraph.sortIf sorted arena cs := by
  unfold FlameGraph.sortIf
  by_cases hs : sorted = true
  · simp only [hs, if_pos]
    rw [sortByKeyAsc_congr h]
  · simp at hs
    simp [hs]

theorem keyTotal_congr {arena arena' : List StackInfo} {c : Nat}
    (h : (arena'.get? c).map (fun s => s.total_count) =
      (arena.get? c).map (fun s => s.total_count)) :
    FlameGraph.keyTotal arena' c = FlameGraph.keyTotal arena c := by
  unfold FlameGraph.keyTotal
  rw [h]

/-- Transport of the arena invariants along a change that keeps ids and
parent links and permutes each node's children list. -/
theorem arenaInv_perm {arena arena' : List StackInfo}
    (hlen : arena'.length = arena.length)
    (hto : ∀ j info', arena'.get? j = some info' → ∃ info,
      arena.get? j = some info ∧ info'.id = info.id ∧
      info'.parent = info.parent ∧ info'.children.Perm info.children)
    (inv : ArenaInv arena) : ArenaInv arena' := by
  refine ⟨by rw [hlen]; exact inv.nonempty, ?_, ?_, ?_, ?_, ?_, ?_⟩
  · intro i info' hi
    obtain ⟨info, hg, hid, _, _⟩ := hto i info' hi
    rw [hid]
    exact inv.idOk i info hg
  · intro info' h0
    obtain ⟨info, hg, _, hpar, _⟩ := hto 0 info' h0
    rw [hpar]
    exact inv.rootParent info hg
  · intro i info' c hi hc
    obtain ⟨info, hg, _, _, hch⟩ := hto i info' hi
    have := inv.childrenBound i info c hg (hch.mem_iff.mp hc)
    exact ⟨this.1, by omega⟩
  · intro i info' hi
    obtain ⟨info, hg, _, _, hch⟩ := hto i info' hi
    exact hch.nodup_iff.mpr (inv.childrenNodup i info hg)
  · intro p pinfo' c cinfo' hp hc hcg
    obtain ⟨pinfo, hpg, _, _, hpch⟩ := hto p pinfo' hp
    obtain ⟨cinfo, hcg2, _, hcpar, _⟩ := hto c cinfo' hcg
    rw [hcpar]
    exact inv.parentLink p pinfo c cinfo hpg (hpch.mem_iff.mp hc) hcg2
  · intro i info' hi hne
    obtain ⟨info, hg, _, hpar, _⟩ := hto i info' hi
    obtain ⟨p, pinfo, hip, hpg, hplt, hmem⟩ := inv.connected i info hg hne
    have hpl : p < arena'.length := by
      have := (List.get?_eq_some.mp hpg).1
      omega
    obtain ⟨pinfo', hpg'⟩ : ∃ y, arena'.get? p = some y :=
      ⟨arena'.get ⟨p, hpl⟩, List.get?_eq_get hpl⟩
    obtain ⟨pinfo2, hpg2, _, _, hpch'⟩ := hto p pinfo' hpg'
    rw [hpg] at hpg2
    injection hpg2 with hh
    refine ⟨p, pinfo', by rw [hpar]; exact hip, hpg', hplt, ?_⟩
    refine hpch'.mem_iff.mpr ?_
    rw [← hh]
    exact hmem

theorem SameCore_refl (info : StackInfo) : SameCore info info :=
  ⟨rfl, rfl, rfl, rfl, rfl, rfl, rfl, rfl, rfl⟩

theorem SameCore_trans {a b c : StackInfo} (h1 : SameCore a b)
    (h2 : SameCore b c) : SameCore a c := by
  obtain ⟨a1, a2, a3, a4, a5, a6, a7, a8, a9⟩ := h1
  obtain ⟨b1, b2, b3, b4, b5, b6, b7, b8, b9⟩ := h2
  exact ⟨a1.trans b1, a2.trans b2, a3.trans b3, a4.trans b4, a5.trans b5,
    a6.trans b6, a7.trans b7, a8.trans b8, a9.trans b9⟩

theorem ArenaRel_refl (arena : List StackInfo) : ArenaRel arena arena :=
  ⟨rfl, fun j info hj => ⟨info, hj, SameCore_refl info, List.Perm.refl _⟩⟩

theorem ArenaRel_trans {a b c : List StackInfo} (h1 : ArenaRel a b)
    (h2 : ArenaRel b c) : ArenaRel a c := by
  refine ⟨h2.1.trans h1.1, fun j info hj => ?_⟩
  obtain ⟨infoB, hB, hcB, hpB⟩ := h1.2 j info hj
  obtain ⟨infoC, hC, hcC, hpC⟩ := h2.2 j infoB hB
  exact ⟨infoC, hC, SameCore_trans hcC hcB, hpC.trans hpB⟩

theorem ArenaRel.backward {arena arenaC : List StackInfo}
    (h : ArenaRel arena arenaC) :
    ∀ j info', arenaC.get? j = some info' → ∃ info,
      arena.get? j = some info ∧ SameCore info' info ∧
      info'.children.Perm info.children := by
  intro j info' hj
  have hjl : j < arena.length := by
    have h1 := (List.get?_eq_some.mp hj).1
    have h2 := h.1
    omega
  obtain ⟨info, hg⟩ : ∃ x, arena.get? j = some x :=
    ⟨arena.get ⟨j, hjl⟩, List.get?_eq_get hjl⟩
  obtain ⟨info2, hg2, hc2, hp2⟩ := h.2 j info hg
  rw [hj] at hg2
  injection hg2 with hh
  subst hh
  exact ⟨info, hg, hc2, hp2⟩

theorem ArenaRel.inv {arena arenaC : List StackInfo}
    (h : ArenaRel arena arenaC) (inv : ArenaInv arena) : ArenaInv arenaC := by
  refine arenaInv_perm h.1 (fun j info' hj => ?_) inv
  obtain ⟨info, hg, hc, hp⟩ := h.backward j info' hj
  exact ⟨info, hg, hc.1, hc.2.2.2.2.2.2.1, hp⟩

theorem ArenaRel.reach_iff {arena arenaC : List StackInfo}
    (h : ArenaRel arena arenaC) {i j : Nat} :
    Reach arenaC i j ↔ Reach arena i j := by
  constructor
  · refine Reach.mono (fun q info' hq => ?_)
    obtain ⟨info, hg, _, hp⟩ := h.backward q info' hq
    exact ⟨info, hg, fun x hx => hp.mem_iff.mp hx⟩
  · refine Reach.mono (fun q info hq => ?_)
    obtain ⟨info', hg', _, hp⟩ := h.2 q info hq
    exact ⟨info', hg', fun x hx => hp.mem_iff.mpr hx⟩

/-- When the current state agrees with the parse-time arena on the whole
subtree of `c`, reachability from `c` is the same in both. -/
theorem Reach_agree_iff {arena arenaC : List StackInfo} {c : Nat}
    (hagree : ∀ j, Reach arena c j → arenaC.get? j = arena.get? j) :
    ∀ j, Reach arenaC c j ↔ Reach arena c j := by
  intro j
  constructor
  · intro h
    induction h with
    | refl => exact Reach.refl _
    | step hr hg hm ih =>
      rw [hagree _ ih] at hg
      exact Reach.step ih hg hm
  · intro h
    induction h with
    | refl => exact Reach.refl _
    | step hr hg hm ih =>
      rw [← hagree _ hr] at hg
      exact Reach.step ih hg hm

/-- Specification of the children fold inside `populate_levels`.  All
reachability and per-node facts are stated relative to the parse-time
arena `arena`; `arenaC` is the state when the fold starts, in which node
`i` has already been rewritten to `iinfo1`. -/
theorem popFold_spec (sorted : Bool) (fuel : Nat)
    (IH : ∀ (arena2 : List StackInfo) (levels2 : List (List Nat))
      (i2 level2 : Nat) (pinfo2 : Option (Nat × Frac)),
      ArenaInv arena2 → i2 < arena2.length → level2 ≤ levels2.length →
      arena2.length - i2 < fuel →
      PopConc sorted fuel arena2 levels2 i2 level2 pinfo2)
    (arena : List StackInfo) (inv : ArenaInv arena)
    (i : Nat) (iinfo iinfo1 : StackInfo)
    (hig : arena.get? i = some iinfo)
    (htot1 : iinfo1.total_count = iinfo.total_count)
    (level : Nat) (wfv : Frac) (hwf1 : iinfo1.width_factor = wfv) :
    ∀ (cs : List Nat) (arenaC : List StackInfo) (levelsC : List (List Nat)),
    (∀ c ∈ cs, c ∈ iinfo.children) → cs.Nodup →
    ArenaRel arena arenaC →
    arenaC.get? i = some iinfo1 →
    (∀ c ∈ cs, ∀ j, Reach arena c j → arenaC.get? j = arena.get? j) →
    level + 1 ≤ levelsC.length →
    (∀ c ∈ cs, arena.length - c < fuel) →
    ∃ arenaF levelsF,
      cs.foldl (fun acc cid => acc.bind (fun sl =>
        FlameGraph.populate_levels sorted fuel sl.1 sl.2 cid (level + 1)
          (some (iinfo.total_count, wfv)))) (some (arenaC, levelsC)) =
        some (arenaF, levelsF) ∧
      ArenaRel arena arenaF ∧
      levelsC.length ≤ levelsF.length ∧
      (∀ j, (∀ c ∈ cs, ¬ Reach arena c j) →
        arenaF.get? j = arenaC.get? j) ∧
      (∀ c ∈ cs, ∀ j info, Reach arena c j → arena.get? j = some info →
        ∃ info', arenaF.get? j = some info' ∧ SameCore info' info ∧
          info'.children = FlameGraph.sortIf sorted arena info.children ∧
          ∃ p pjinfo, info'.parent = some p ∧ arenaF.get? p = some pjinfo ∧
            info'.width_factor =
              ⟨pjinfo.width_factor.num * info'.total_count,
                pjinfo.width_factor.den * pjinfo.total_count⟩) := by
  intro cs
  induction cs with
  | nil =>
    intro arenaC levelsC _ _ hrel hiC _ hlev _
    exact ⟨arenaC, levelsC, rfl, hrel, le_refl _, fun j _ => rfl,
      fun c hc => absurd hc (List.not_mem_nil c)⟩
  | cons c rest ihcs =>
    intro arenaC levelsC hsub hnd hrel hiC hagree hlev hfuel
    have hcmem : c ∈ iinfo.children := hsub c (List.mem_cons_self c rest)
    have hcb := inv.childrenBound i iinfo c hig hcmem
    have hclenC : c < arenaC.length := by rw [hrel.1]; exact hcb.2
    have hinvC : ArenaInv arenaC := hrel.inv inv
    have hagreec : ∀ j, Reach arena c j → arenaC.get? j = arena.get? j :=
      hagree c (List.mem_cons_self c rest)
    have hreachiff : ∀ j, Reach arenaC c j ↔ Reach arena c j :=
      Reach_agree_iff hagreec
    have hcnotin : c ∉ rest := (List.nodup_cons.mp hnd).1
    -- the recursive call on child c
    obtain ⟨arenaD, levelsD, hrun, hinvD, hlenD, hlevD, huntD, hreachD⟩ :=
      IH arenaC levelsC c (level + 1) (some (iinfo.total_count, wfv))
        hinvC hclenC hlev
        (by rw [hrel.1]; exact hfuel c (List.mem_cons_self c rest))
    -- the new state is still ArenaRel-related to the parse-time arena
    have hrelCD : ArenaRel arenaC arenaD := by
      refine ⟨hlenD, fun j info hj => ?_⟩
      by_cases hr : Reach arenaC c j
      · obtain ⟨info', hg', hcore, hch, _, _⟩ := hreachD j info hj hr
        exact ⟨info', hg', hcore, hch ▸ sortIf_perm sorted arenaC info.children⟩
      · exact ⟨info, (huntD j hr).trans hj, SameCore_refl info,
          List.Perm.refl _⟩
    have hrelD : ArenaRel arena arenaD := ArenaRel_trans hrel hrelCD
    -- node i is untouched by the child's subtree
    have hnotreach_i : ¬ Reach arenaC c i := fun hr => by
      have := (Reach.le inv ((hreachiff i).mp hr))
      omega
    have hiD : arenaD.get? i = some iinfo1 := (huntD i hnotreach_i).trans hiC
    -- later siblings' subtrees are still in their parse-time state
    have hagreeD : ∀ c' ∈ rest, ∀ j, Reach arena c' j →
        arenaD.get? j = arena.get? j := by
      intro c' hc' j hr
      have hne : c ≠ c' := fun h => hcnotin (h ▸ hc')
      have hnr : ¬ Reach arenaC c j := fun hrc =>
        sibling_disjoint inv hig hcmem (hsub c' (List.mem_cons_of_mem c hc'))
          hne ((hreachiff j).mp hrc) hr
      exact (huntD j hnr).trans
        (hagree c' (List.mem_cons_of_mem c hc') j hr)
    -- fold over the remaining siblings
    obtain ⟨arenaF, levelsF, hrunF, hrelF, hlevF, huntF, hreachF⟩ :=
      ihcs arenaD levelsD
        (fun c' hc' => hsub c' (List.mem_cons_of_mem c hc'))
        (List.nodup_cons.mp hnd).2 hrelD hiD hagreeD
        (hlev.trans hlevD)
        (fun c' hc' => hfuel c' (List.mem_cons_of_mem c hc'))
    refine ⟨arenaF, levelsF, ?_, hrelF, hlevD.trans hlevF, ?_, ?_⟩
    · -- the fold equation
      simp only [List.foldl_cons, Option.some_bind]
      rw [hrun]
      exact hrunF
    · -- untouched nodes
      intro j hnr
      have h1 : arenaF.get? j = arenaD.get? j :=
        huntF j (fun c' hc' => hnr c' (List.mem_cons_of_mem c hc'))
      have h2 : arenaD.get? j = arenaC.get? j :=
        huntD j (fun hrc =>
          hnr c (List.mem_cons_self c rest) ((hreachiff j).mp hrc))
      exact h1.trans h2
    · -- nodes in the subtrees of the processed children
      intro c' hc' j info hr hg
      rcases List.mem_cons.mp hc' with hceq | hcrest
      · -- c' = c: translate the child call's conclusions and persist them
        subst hceq
        have hgC : arenaC.get? j = some info := (hagreec j hr).trans hg
        obtain ⟨info', hg', hcore, hch, hwfc, hwfnc⟩ :=
          hreachD j info hgC ((hreachiff j).mpr hr)
        -- the subtree of c' is untouched by the later siblings
        have hpersist : ∀ x, Reach arena c' x →
            arenaF.get? x = arenaD.get? x := by
          intro x hrx
          refine huntF x (fun c2 hc2 hr2 => ?_)
          have hne : c' ≠ c2 := fun h => hcnotin (h ▸ hc2)
          exact sibling_disjoint inv hig hcmem
            (hsub c2 (List.mem_cons_of_mem c' hc2)) hne hrx hr2
        have hgF : arenaF.get? j = some info' := (hpersist j hr).trans hg'
        -- children congruence back to the parse-time arena
        have hch' : info'.children =
            FlameGraph.sortIf sorted arena info.children := by
          rw [hch]
          refine sortIf_congr (fun x hx => keyTotal_congr ?_)
          rw [hagreec x (hr.trans (Reach.child hg hx))]
        refine ⟨info', hgF, hcore, hch', ?_⟩
        by_cases hjc : j = c'
        · -- the child itself: its parent is node i, already rewritten
          have hgc : arena.get? c' = some info := hjc ▸ hg
          have hpar : info.parent = some i :=
            inv.parentLink i iinfo c' info hig hcmem hgc
          have hiF : arenaF.get? i = some iinfo1 := by
            refine (huntF i (fun c2 hc2 hr2 => ?_)).trans hiD
            have := Reach.le inv hr2
            have := (inv.childrenBound i iinfo c2 hig
              (hsub c2 (List.mem_cons_of_mem c' hc2))).1
            omega
          refine ⟨i, iinfo1, hcore.2.2.2.2.2.2.1.trans hpar, hiF, ?_⟩
          have hwfval := hwfc hjc
          rw [hwfval, hwf1, htot1, hcore.2.2.2.2.1]
          rfl
        · -- a strict descendant: its parent is inside the subtree of c'
          obtain ⟨p, pjinfo, hparp, hpD, hwfp⟩ := hwfnc hjc
          -- identify p with the parent produced by up_split
          obtain ⟨p2, xinfo, hxg, hxp, hrp2, _⟩ :=
            Reach.up_split inv hr (fun h => hjc h.symm)
          rw [hg] at hxg
          injection hxg with hxi
          rw [← hxi] at hxp
          have hpp : info.parent = some p :=
            hcore.2.2.2.2.2.2.1 ▸ hparp
          rw [hpp] at hxp
          injection hxp with hpe
          rw [← hpe] at hrp2
          have hpF : arenaF.get? p = some pjinfo :=
            (hpersist p hrp2).trans hpD
          exact ⟨p, pjinfo, hparp, hpF, hwfp⟩
      · -- a later sibling: directly from the fold's conclusions
        exact hreachF c' hcrest j info hr hg

/-- Full specification of `populate_levels` on a well-formed arena with
enough fuel. -/
theorem populate_levels_spec (sorted : Bool) :
    ∀ (fuel : Nat) (arena : List StackInfo) (levels : List (List Nat))
      (i level : Nat) (pinfo : Option (Nat × Frac)),
      ArenaInv arena → i < arena.length → level ≤ levels.length →
      arena.length - i < fuel →
      PopConc sorted fuel arena levels i level pinfo := by
  intro fuel
  induction fuel with
  | zero =>
    intro arena levels i level pinfo inv hi hlev hfuel
    omega
  | succ fuel ihf =>
    intro arena levels i level pinfo inv hi hlev hfuel
    obtain ⟨iinfo, hig⟩ : ∃ x, arena.get? i = some x :=
      ⟨arena.get ⟨i, hi⟩, List.get?_eq_get hi⟩
    obtain ⟨levels1, hL1, hlev1, hlen1⟩ :
        ∃ levels1, (if levels.length ≤ level then levels ++ [[]]
          else levels) = levels1 ∧ level < levels1.length ∧
          levels.length ≤ levels1.length := by
      by_cases h : levels.length ≤ level
      · exact ⟨levels ++ [[]], if_pos h, by simp; omega, by simp⟩
      · exact ⟨levels, if_neg h, by omega, le_refl _⟩
    have hwfeq : (match pinfo with
        | some (ptotal, pwf) =>
          (⟨pwf.num * iinfo.total_count, pwf.den * ptotal⟩ : Frac)
        | none => ⟨1, 1⟩) = wfOf pinfo iinfo.total_count := by
      cases pinfo with
      | none => rfl
      | some pt =>
        obtain ⟨a, b⟩ := pt
        rfl
    -- the state after rewriting node i, before recursing into children
    have hmod := get?_listModify_self
      (fun s => { s with
        width_factor := wfOf pinfo iinfo.total_count
        children := FlameGraph.sortIf sorted arena iinfo.children })
      hig
    have hrel1 : ArenaRel arena
        (listModify arena i
          (fun s => { s with
            width_factor := wfOf pinfo iinfo.total_count
            children := FlameGraph.sortIf sorted arena iinfo.children })) := by
      refine ⟨length_listModify arena i _, fun j info hj => ?_⟩
      by_cases hji : j = i
      · subst hji
        rw [hig] at hj
        injection hj with hj2
        subst hj2
        exact ⟨_, hmod, ⟨rfl, rfl, rfl, rfl, rfl, rfl, rfl, rfl, rfl⟩,
          sortIf_perm sorted arena iinfo.children⟩
      · exact ⟨info, (get?_listModify_ne _ (fun h => hji h.symm)).trans hj,
          SameCore_refl info, List.Perm.refl _⟩
    obtain ⟨arenaF, levelsF, hrunF, hrelF, hlevF, huntF, hreachF⟩ :=
      popFold_spec sorted fuel ihf arena inv i iinfo
        ({ iinfo with
          width_factor := wfOf pinfo iinfo.total_count
          children := FlameGraph.sortIf sorted arena iinfo.children })
        hig rfl level
        (wfOf pinfo iinfo.total_count) rfl
        (FlameGraph.sortIf sorted arena iinfo.children)
        (listModify arena i
          (fun s => { s with
            width_factor := wfOf pinfo iinfo.total_count
            children := FlameGraph.sortIf sorted arena iinfo.children }))
        (listModify levels1 level (fun row => row ++ [i]))
        (fun c hc => mem_sortIf.mp hc)
        (nodup_sortIf (inv.childrenNodup i iinfo hig))
        hrel1 hmod
        (by
          intro c hc j hr
          have h1 := (inv.childrenBound i iinfo c hig (mem_sortIf.mp hc)).1
          have h2 := Reach.le inv hr
          exact get?_listModify_ne _ (by omega))
        (by rw [length_listModify]; omega)
        (by
          intro c hc
          have h1 := (inv.childrenBound i iinfo c hig (mem_sortIf.mp hc)).1
          omega)
    refine ⟨arenaF, levelsF, ?_, hrelF.inv inv, hrelF.1, ?_, ?_, ?_⟩
    · -- the computation itself
      simp only [FlameGraph.populate_levels, hL1, hig, hwfeq]
      rw [if_pos hlev1]
      exact hrunF
    · -- the levels list only grows
      calc levels.length ≤ levels1.length := hlen1
        _ = (listModify levels1 level (fun row => row ++ [i])).length :=
          (length_listModify levels1 level _).symm
        _ ≤ levelsF.length := hlevF
    · -- nodes outside the subtree of i are untouched
      intro j hnr
      have hji : j ≠ i := fun h => hnr (by rw [h]; exact Reach.refl i)
      have h1 : arenaF.get? j = _ := huntF j (fun c hc hrc =>
        hnr ((Reach.child hig (mem_sortIf.mp hc)).trans hrc))
      rw [h1]
      exact get?_listModify_ne _ (fun h => hji h.symm)
    · -- nodes inside the subtree of i
      intro j info hg hr
      by_cases hji : j = i
      · subst hji
        rw [hig] at hg
        injection hg with hg2
        subst hg2
        have hjF : arenaF.get? j = some
            ({ iinfo with
              width_factor := wfOf pinfo iinfo.total_count
              children := FlameGraph.sortIf sorted arena iinfo.children }) := by
          refine (huntF j (fun c hc hrc => ?_)).trans hmod
          have h1 := (inv.childrenBound j iinfo c hig (mem_sortIf.mp hc)).1
          have h2 := Reach.le inv hrc
          omega
        refine ⟨_, hjF, ⟨rfl, rfl, rfl, rfl, rfl, rfl, rfl, rfl, rfl⟩,
          rfl, fun _ => rfl, fun h => absurd rfl h⟩
      · rcases Reach.down_split hr with heq | ⟨info0, c, hgi, hc, hrc⟩
        · exact absurd heq.symm hji
        · rw [hig] at hgi
          injection hgi with hgi2
          rw [← hgi2] at hc
          obtain ⟨info', hgF, hcore, hch, p, pjinfo, hpar, hpF, hwfp⟩ :=
            hreachF c (mem_sortIf.mpr hc) j info hrc hg
          exact ⟨info', hgF, hcore, hch, fun h => absurd h hji,
            fun _ => ⟨p, pjinfo, hpar, hpF, hwfp⟩⟩

/-! ### Transport of the parse-phase invariants through `populate_levels` -/

theorem childTotalSum_perm {arena : List StackInfo} {cs cs' : List Nat}
    (h : cs.Perm cs') : childTotalSum arena cs = childTotalSum arena cs' :=
  (h.map _).sum_eq

theorem ArenaRel.totalsMap {arena arenaC : List StackInfo}
    (h : ArenaRel arena arenaC) (c : Nat) :
    (arenaC.get? c).map (fun s => s.total_count) =
      (arena.get? c).map (fun s => s.total_count) := by
  cases hg : arena.get? c with
  | some info =>
    obtain ⟨info', hg', hcore, _⟩ := h.2 c info hg
    rw [hg']
    simp [hcore.2.2.2.2.1]
  | none =>
    have hle : arena.length ≤ c := by
      rcases Nat.lt_or_ge c arena.length with hlt | hge
      · rw [List.get?_eq_get hlt] at hg
        simp at hg
      · exact hge
    rw [List.get?_len_le (by rw [h.1]; exact hle)]

theorem CountBalanced_rel {arena arenaC : List StackInfo}
    (hrel : ArenaRel arena arenaC) (hbal : CountBalanced arena) :
    CountBalanced arenaC := by
  intro i info' hi
  obtain ⟨info, hg, hcore, hperm⟩ := hrel.backward i info' hi
  have hb := hbal i info hg
  have h1 : childTotalSum arenaC info'.children =
      childTotalSum arena info.children := by
    rw [childTotalSum_perm hperm]
    exact childTotalSum_congr (fun c _ => hrel.totalsMap c)
  rw [hcore.2.2.2.2.1, hcore.2.2.2.2.2.1, h1]
  exact hb

theorem PosTotals_rel {arena arenaC : List StackInfo}
    (hrel : ArenaRel arena arenaC) (hp : PosTotals arena) :
    PosTotals arenaC := by
  intro i info' hi hne
  obtain ⟨info, hg, hcore, _⟩ := hrel.backward i info' hi
  rw [hcore.2.2.2.2.1]
  exact hp i info hg hne

theorem le_childTotalSum {arena : List StackInfo} {cs : List Nat} {c : Nat}
    (hmem : c ∈ cs) :
    ((arena.get? c).map (fun s => s.total_count)).getD 0 ≤
      childTotalSum arena cs := by
  induction cs with
  | nil => cases hmem
  | cons x xs ih =>
    have hstep : childTotalSum arena (x :: xs) =
        ((arena.get? x).map (fun s => s.total_count)).getD 0 +
          childTotalSum arena xs := by
      simp [childTotalSum]
    rcases List.mem_cons.mp hmem with h | h
    · subst h
      omega
    · have := ih h
      omega

/-- Every node of a well-formed arena is in the subtree of the root. -/
theorem Reach.from_root {arena : List StackInfo} (inv : ArenaInv arena) :
    ∀ j, j < arena.length → Reach arena 0 j := by
  intro j
  induction j using Nat.strong_induction_on with
  | _ j ih =>
    intro hj
    by_cases h0 : j = 0
    · subst h0
      exact Reach.refl 0
    · obtain ⟨info, hg⟩ : ∃ x, arena.get? j = some x :=
        ⟨arena.get ⟨j, hj⟩, List.get?_eq_get hj⟩
      obtain ⟨p, pinfo, _, hpg, hplt, hmem⟩ := inv.connected j info hg h0
      exact Reach.step (ih p hplt (by omega)) hpg hmem

/-- The composite specification of `FlameGraph::from_string`: it always
succeeds, the arena keeps all structural invariants and the count balance,
the root carries the accepted total with width factor 1, every other node
carries the parent-relative width factor, the children lists are exactly
the (optionally sorted) parse-time lists, and positive accepted counts
give positive totals. -/
theorem from_string_spec (content0 : List Char) (sorted : Bool) :
    ∃ fg, FlameGraph.from_string content0 sorted = some fg ∧
      fg.data = FlameGraph.normalizeNL content0 ∧
      fg.hits = none ∧ fg.sorted = sorted ∧
      ArenaInv fg.stacks' ∧ CountBalanced fg.stacks' ∧
      (∃ arenaPre, FlameGraph.from_string_stacks content0 =
        some (fg.data, arenaPre) ∧
        ArenaRel arenaPre fg.stacks' ∧
        (∀ j info info', arenaPre.get? j = some info →
          fg.stacks'.get? j = some info' →
          info'.children = FlameGraph.sortIf sorted arenaPre info.children)) ∧
      (∃ rinfo, fg.stacks'.get? 0 = some rinfo ∧
        rinfo.total_count = acceptedSum (lineChunks fg.data) ∧
        rinfo.self_count = 0 ∧ rinfo.parent = none ∧
        rinfo.start_index = 0 ∧ rinfo.end_index = 0 ∧
        rinfo.width_factor = ⟨1, 1⟩) ∧
      (∀ j info', fg.stacks'.get? j = some info' → j ≠ 0 →
        ∃ p pinfo, info'.parent = some p ∧ fg.stacks'.get? p = some pinfo ∧
          info'.width_factor = ⟨pinfo.width_factor.num * info'.total_count,
            pinfo.width_factor.den * pinfo.total_count⟩) ∧
      (PosCounts (lineChunks fg.data) → PosTotals fg.stacks') := by
  obtain ⟨arenaPre, hrunP, invP, hbalP, hroots, hposP⟩ :=
    from_string_stacks_spec content0
  obtain ⟨arenaF, levelsF, hrunL, hinvF, hlenF, _, _, hreachF⟩ :=
    populate_levels_spec sorted (arenaPre.length + 1) arenaPre [] 0 0 none
      invP invP.nonempty (Nat.le_refl 0) (by omega)
  have hrelPF : ArenaRel arenaPre arenaF := by
    refine ⟨hlenF, fun j info hj => ?_⟩
    have hjl : j < arenaPre.length := (List.get?_eq_some.mp hj).1
    obtain ⟨info', hg', hcore, hch, _, _⟩ :=
      hreachF j info hj (Reach.from_root invP j hjl)
    exact ⟨info', hg', hcore, hch ▸ sortIf_perm sorted arenaPre info.children⟩
  refine ⟨{ data := FlameGraph.normalizeNL content0, stacks' := arenaF,
            levels := levelsF, hits := none, sorted := sorted,
            ordered_stacks := ⟨SortColumn.Total, 0⟩ }, ?_, rfl, rfl, rfl,
    hrelPF.inv invP, CountBalanced_rel hrelPF hbalP, ?_, ?_, ?_, ?_⟩
  · simp only [FlameGraph.from_string, hrunP, ROOT_ID]
    rw [hrunL]
    rfl
  · refine ⟨arenaPre, hrunP, hrelPF, fun j info info' hj hj' => ?_⟩
    have hjl : j < arenaPre.length := (List.get?_eq_some.mp hj).1
    obtain ⟨info2, hg2, _, hch, _, _⟩ :=
      hreachF j info hj (Reach.from_root invP j hjl)
    rw [hj'] at hg2
    injection hg2 with he
    rw [he]
    exact hch
  · obtain ⟨rinfo, hr0, hrt, hrs, hrstart, hrend, hrpar, _, _⟩ := hroots
    obtain ⟨rinfo', hg', hcore, _, hwf0, _⟩ :=
      hreachF 0 rinfo hr0 (Reach.refl 0)
    refine ⟨rinfo', hg', ?_, ?_, ?_, ?_, ?_, hwf0 rfl⟩
    · rw [hcore.2.2.2.2.1, hrt]
    · rw [hcore.2.2.2.2.2.1, hrs]
    · rw [hcore.2.2.2.2.2.2.1, hrpar]
    · rw [hcore.2.2.1, hrstart]
    · rw [hcore.2.2.2.1, hrend]
  · intro j info' hj' hne
    have hjl : j < arenaPre.length := by
      have := (List.get?_eq_some.mp hj').1
      rw [hlenF] at this
      exact this
    obtain ⟨info, hg⟩ : ∃ x, arenaPre.get? j = some x :=
      ⟨arenaPre.get ⟨j, hjl⟩, List.get?_eq_get hjl⟩
    obtain ⟨info2, hg2, _, _, _, hrec⟩ :=
      hreachF j info hg (Reach.from_root invP j hjl)
    rw [hj'] at hg2
    injection hg2 with he
    rw [← he] at hrec
    exact hrec hne
  · intro hpc
    exact PosTotals_rel hrelPF (hposP hpc)

/-! ### Width-factor bounds -/

theorem wf_bounds {arena : List StackInfo} (inv : ArenaInv arena)
    (hroot : ∃ rinfo, arena.get? 0 = some rinfo ∧
      rinfo.width_factor = ⟨1, 1⟩)
    (hrec : ∀ j info', arena.get? j = some info' → j ≠ 0 →
      ∃ p pinfo, info'.parent = some p ∧ arena.get? p = some pinfo ∧
        info'.width_factor = ⟨pinfo.width_factor.num * info'.total_count,
          pinfo.width_factor.den * pinfo.total_count⟩)
    (hbal : CountBalanced arena) (hpos : PosTotals arena) :
    ∀ j info, arena.get? j = some info →
      0 < info.width_factor.num ∧ 0 < info.width_factor.den ∧
      info.width_factor.num ≤ info.width_factor.den := by
  intro j
  induction j using Nat.strong_induction_on with
  | _ j ih =>
    intro info hg
    by_cases h0 : j = 0
    · subst h0
      obtain ⟨rinfo, hr, hwf⟩ := hroot
      rw [hg] at hr
      injection hr with he
      rw [← he] at hwf
      rw [hwf]
      exact ⟨Nat.one_pos, Nat.one_pos, le_refl 1⟩
    · obtain ⟨p, pinfo, hpar, hpg, hwf⟩ := hrec j info hg h0
      obtain ⟨p2, pinfo2, hpar2, hpg2, hplt2, hmem2⟩ :=
        inv.connected j info hg h0
      rw [hpar] at hpar2
      injection hpar2 with hpe
      rw [← hpe] at hpg2 hplt2
      rw [hpg] at hpg2
      injection hpg2 with hpie
      rw [← hpie] at hmem2
      have ihp := ih p hplt2 pinfo hpg
      have htj : 1 ≤ info.total_count := hpos j info hg h0
      have htle : info.total_count ≤ pinfo.total_count := by
        have hb := hbal p pinfo hpg
        have hle := @le_childTotalSum arena pinfo.children j hmem2
        rw [hg] at hle
        simp only [Option.map_some', Option.getD_some] at hle
        omega
      rw [hwf]
      exact ⟨Nat.mul_pos ihp.1 htj,
        Nat.mul_pos ihp.2.1 (Nat.lt_of_lt_of_le htj htle),
        Nat.mul_le_mul ihp.2.2 htle⟩

theorem frac_toRat_bounds {f : Frac} (h1 : 0 < f.num) (h2 : 0 < f.den)
    (h3 : f.num ≤ f.den) : 0 < f.toRat ∧ f.toRat ≤ 1 := by
  unfold Frac.toRat
  constructor
  · apply div_pos
    · exact_mod_cast h1
    · exact_mod_cast h2
  · rw [div_le_one (by exact_mod_cast h2)]
    exact_mod_cast h3

/-! ### Hit-coverage traversal -/

theorem ccov_fold {arena : List StackInfo} {fuel : Nat} {cs : List Nat}
    {g : Nat → Nat}
    (h : ∀ c ∈ cs, FlameGraph.countHitCoverage arena fuel c = some (g c)) :
    ∀ a, cs.foldl (fun acc cid => acc.bind (fun n =>
        (FlameGraph.countHitCoverage arena fuel cid).map (fun k => n + k)))
      (some a) = some (a + (cs.map g).sum) := by
  induction cs with
  | nil => intro a; simp
  | cons c rest ih =>
    intro a
    simp only [List.foldl_cons, Option.some_bind,
      h c (List.mem_cons_self c rest), Option.map_some']
    rw [ih (fun x hx => h x (List.mem_cons_of_mem c hx))]
    simp [Nat.add_assoc]

theorem sum_ite_single {cs : List Nat} {c : Nat} (hmem : c ∈ cs)
    (hnd : cs.Nodup) (v : Nat) :
    (cs.map (fun x => if x = c then v else 0)).sum = v := by
  induction cs with
  | nil => cases hmem
  | cons x xs ih =>
    rcases List.mem_cons.mp hmem with h | h
    · subst h
      have hnin : c ∉ xs := (List.nodup_cons.mp hnd).1
      have hz : (xs.map (fun y => if y = c then v else 0)).sum = 0 := by
        apply List.sum_eq_zero
        intro n hn
        obtain ⟨y, hy, he⟩ := List.mem_map.mp hn
        have hyc : y ≠ c := fun hyc => hnin (hyc ▸ hy)
        rw [if_neg hyc] at he
        exact he.symm
      simp [hz]
    · have hxc : x ≠ c := fun he => (List.nodup_cons.mp hnd).1 (he ▸ h)
      simp only [List.map_cons, List.sum_cons, if_neg hxc, Nat.zero_add]
      exact ih h (List.nodup_cons.mp hnd).2

/-- If no node of the subtree of `i` is hit, the coverage of `i` is 0. -/
theorem ccov_no_hit {arena : List StackInfo} (inv : ArenaInv arena) :
    ∀ fuel i, i < arena.length → arena.length - i < fuel →
    (∀ j jinfo, Reach arena i j → arena.get? j = some jinfo →
      jinfo.hit = false) →
    FlameGraph.countHitCoverage arena fuel i = some 0 := by
  intro fuel
  induction fuel with
  | zero =>
    intro i hi hfuel _
    omega
  | succ fuel ih =>
    intro i hi hfuel hnone
    obtain ⟨info, hg⟩ : ∃ x, arena.get? i = some x :=
      ⟨arena.get ⟨i, hi⟩, List.get?_eq_get hi⟩
    have hhit : info.hit = false := hnone i info (Reach.refl i) hg
    simp only [FlameGraph.countHitCoverage, hg, hhit, Bool.false_eq_true,
      if_false]
    have hkids : ∀ c ∈ info.children,
        FlameGraph.countHitCoverage arena fuel c = some 0 := by
      intro c hc
      have hcb := inv.childrenBound i info c hg hc
      exact ih c hcb.2 (by omega)
        (fun j jinfo hr hj =>
          hnone j jinfo ((Reach.child hg hc).trans hr) hj)
    have := @ccov_fold arena fuel info.children (fun _ => 0) hkids 0
    rw [this]
    simp

/-- If `n` is hit, lies in the subtree of `i`, and every hit node lies in
the subtree of `n`, the coverage of `i` is exactly `n`'s total count. -/
theorem ccov_hit_unique {arena : List StackInfo} (inv : ArenaInv arena) :
    ∀ fuel i n ninfo, i < arena.length → arena.length - i < fuel →
    Reach arena i n → arena.get? n = some ninfo → ninfo.hit = true →
    (∀ j jinfo, arena.get? j = some jinfo → jinfo.hit = true →
      Reach arena n j) →
    FlameGraph.countHitCoverage arena fuel i = some ninfo.total_count := by
  intro fuel
  induction fuel with
  | zero =>
    intro i n ninfo hi hfuel _ _ _ _
    omega
  | succ fuel ih =>
    intro i n ninfo hi hfuel hrn hng hnhit hmax
    obtain ⟨info, hg⟩ : ∃ x, arena.get? i = some x :=
      ⟨arena.get ⟨i, hi⟩, List.get?_eq_get hi⟩
    by_cases hhit : info.hit = true
    · have hni : Reach arena n i := hmax i info hg hhit
      have hie : i = n :=
        Nat.le_antisymm (Reach.le inv hrn) (Reach.le inv hni)
      subst hie
      rw [hg] at hng
      injection hng with he
      rw [← he]
      simp only [FlameGraph.countHitCoverage, hg, hhit, if_true]
    · have hne : i ≠ n := fun he => by
        rw [he, hng] at hg
        injection hg with he2
        rw [he2] at hnhit
        exact hhit hnhit
      rcases Reach.down_split hrn with he | ⟨info0, cstar, hgi, hcs, hrcn⟩
      · exact absurd he hne
      rw [hg] at hgi
      injection hgi with he0
      rw [← he0] at hcs
      have hnd := inv.childrenNodup i info hg
      have hkids : ∀ c ∈ info.children,
          FlameGraph.countHitCoverage arena fuel c =
            some (if c = cstar then ninfo.total_count else 0) := by
        intro c hc
        have hcb := inv.childrenBound i info c hg hc
        by_cases hceq : c = cstar
        · subst hceq
          rw [if_pos rfl]
          exact ih c n ninfo hcb.2 (by omega) hrcn hng hnhit hmax
        · rw [if_neg hceq]
          refine ccov_no_hit inv fuel c hcb.2 (by omega) ?_
          intro j jinfo hr hj
          by_contra hj2
          have hjt : jinfo.hit = true := by
            cases hb : jinfo.hit
            · exact absurd hb hj2
            · rfl
          have hrnj : Reach arena n j := hmax j jinfo hj hjt
          exact sibling_disjoint inv hg hc hcs hceq hr (hrcn.trans hrnj)
      simp only [FlameGraph.countHitCoverage, hg, hhit, Bool.false_eq_true,
        if_false]
      have := @ccov_fold arena fuel info.children
        (fun c => if c = cstar then ninfo.total_count else 0) hkids 0
      rw [this, sum_ite_single hcs hnd]
      simp

/-! ### Skipped lines and the trailing newline -/

/-- Inserting a malformed or comment line anywhere in the line list leaves
the whole line pass unchanged. -/
theorem processLines_skip_insert (content : List Char)
    (l1 l2 : List (Nat × List Char)) (pos : Nat) (bad : List Char)
    (arena : List StackInfo)
    (h : parseLine bad = none ∨ bad.head? = some '#') :
    FlameGraph.processLines content (l1 ++ (pos, bad) :: l2) arena =
      FlameGraph.processLines content (l1 ++ l2) arena := by
  induction l1 generalizing arena with
  | nil =>
    simp only [List.nil_append]
    rcases h with hnone | hhash
    · simp only [FlameGraph.processLines, hnone]
    · cases hparse : parseLine bad with
      | none => simp only [FlameGraph.processLines, hparse]
      | some pc =>
        obtain ⟨path, count⟩ := pc
        simp only [FlameGraph.processLines, hparse, hhash, if_true]
  | cons x l1 ih =>
    obtain ⟨xpos, xline⟩ := x
    cases hp : parseLine xline with
    | none =>
      simp only [List.cons_append, FlameGraph.processLines, hp]
      exact ih arena
    | some pc =>
      obtain ⟨path, count⟩ := pc
      by_cases hh : xline.head? = some '#'
      · simp only [List.cons_append, FlameGraph.processLines, hp]
        rw [if_pos hh, if_pos hh]
        exact ih arena
      · simp only [List.cons_append, FlameGraph.processLines, hp]
        rw [if_neg hh, if_neg hh]
        have hcase : ∀ o : Option (List StackInfo),
            (match o with
             | none => none
             | some s1 =>
               FlameGraph.processLines content (l1 ++ (pos, bad) :: l2) s1) =
            (match o with
             | none => none
             | some s1 => FlameGraph.processLines content (l1 ++ l2) s1) := by
          intro o
          cases o with
          | none => rfl
          | some s1 => exact ih s1
        exact hcase _

theorem arenaInvB_sound {arena : List StackInfo}
    (h : arenaInvB arena = true) : ArenaInv arena := by
  rw [arenaInvB, Bool.and_eq_true] at h
  obtain ⟨h1, h2⟩ := h
  have hbody : ∀ i info, arena.get? i = some info →
      (info.id = i) ∧
      (if i = 0 then info.parent = none else
        ∃ p, info.parent = some p ∧ p < i ∧
          ∃ pinfo, arena.get? p = some pinfo ∧ i ∈ pinfo.children) ∧
      info.children.Nodup ∧
      (∀ c ∈ info.children, i < c ∧
        ∃ cinfo, arena.get? c = some cinfo ∧ cinfo.parent = some i) := by
    intro i info hg
    have hi : i < arena.length := (List.get?_eq_some.mp hg).1
    have hb := List.all_eq_true.mp h2 i (List.mem_range.mpr hi)
    rw [hg] at hb
    simp only [Bool.and_eq_true, decide_eq_true_eq, List.all_eq_true] at hb
    obtain ⟨⟨⟨hid, hpar⟩, hnd⟩, hch⟩ := hb
    refine ⟨hid, ?_, hnd, ?_⟩
    · by_cases h0 : i = 0
      · rw [if_pos h0]
        rw [if_pos h0] at hpar
        simpa using hpar
      · rw [if_neg h0]
        rw [if_neg h0] at hpar
        cases hp : info.parent with
        | none =>
          simp only [hp] at hpar
          simp at hpar
        | some p =>
          simp only [hp] at hpar
          cases hpg : arena.get? p with
          | none =>
            simp only [hpg] at hpar
            simp at hpar
          | some pinfo =>
            simp only [hpg, Bool.and_eq_true, decide_eq_true_eq] at hpar
            exact ⟨p, rfl, hpar.1, pinfo, hpg, hpar.2⟩
    · intro c hc
      have hcb := hch c hc
      cases hcg : arena.get? c with
      | none =>
        simp only [hcg] at hcb
        simp at hcb
      | some cinfo =>
        simp only [hcg, Bool.and_eq_true, decide_eq_true_eq] at hcb
        exact ⟨hcb.1, cinfo, rfl, hcb.2⟩
  refine ⟨by simpa using h1, fun i info hg => (hbody i info hg).1,
    ?_, ?_, fun i info hg => (hbody i info hg).2.2.1, ?_, ?_⟩
  · intro info h0
    have := (hbody 0 info h0).2.1
    simpa using this
  · intro i info c hg hc
    have h1c := ((hbody i info hg).2.2.2 c hc).1
    obtain ⟨cinfo, hcg, _⟩ := ((hbody i info hg).2.2.2 c hc).2
    exact ⟨h1c, (List.get?_eq_some.mp hcg).1⟩
  · intro p pinfo c cinfo hpg hc hcg
    obtain ⟨cinfo2, hcg2, hcp⟩ := ((hbody p pinfo hpg).2.2.2 c hc).2
    rw [hcg] at hcg2
    injection hcg2 with he
    rw [he]
    exact hcp
  · intro i info hg hne
    have := (hbody i info hg).2.1
    rw [if_neg hne] at this
    obtain ⟨p, hp, hplt, pinfo, hpg, hmem⟩ := this
    exact ⟨p, pinfo, hp, hpg, hplt, hmem⟩

/-- Turns a decidable scan over a concrete list into the unbounded
`get?`-quantified form used by the invariant hypotheses. -/
theorem forall_get?_of_all {α : Type} {l : List α} {P : Nat → α → Prop}
    [∀ i a, Decidable (P i a)]
    (h : (List.range l.length).all (fun i =>
      match l.get? i with
      | some a => decide (P i a)
      | none => true) = true) :
    ∀ i a, l.get? i = some a → P i a := by
  intro i a hg
  have hi : i < l.length := (List.get?_eq_some.mp hg).1
  have hb := List.all_eq_true.mp h i (List.mem_range.mpr hi)
  rw [hg] at hb
  exact of_decide_eq_true hb

/-! ### The flamegraph-replacement path -/

/-- Case analysis of `FlameGraphState::handle_flamegraph_replacement`:
selection remap/fallback, exact zoom remap/clear, and search-pattern
re-application. -/
theorem handle_replacement_cases (st : FlameGraphState)
    (old new : FlameGraph) (r : FlameGraphState × FlameGraph)
    (h : st.handle_flamegraph_replacement old new = some r) :
    (st.selected = ROOT_ID → r.1.selected = ROOT_ID) ∧
    (∀ nid, st.selected ≠ ROOT_ID →
      FlameGraphState.get_new_stack_id st.selected old new = some nid →
      r.1.selected = nid) ∧
    (st.selected ≠ ROOT_ID →
      FlameGraphState.get_new_stack_id st.selected old new = none →
      r.1.selected = ROOT_ID) ∧
    (st.zoom = none → r.1.zoom = none) ∧
    (∀ z zid, st.zoom = some z →
      FlameGraphState.get_new_stack_id z.stack_id old new = some zid →
      r.1.zoom = some { z with stack_id := zid }) ∧
    (∀ z, st.zoom = some z →
      FlameGraphState.get_new_stack_id z.stack_id old new = none →
      r.1.zoom = none) ∧
    (∀ p, st.search_pattern = some p → r.1.search_pattern = some p) ∧
    (∀ p, st.search_pattern = some p → new.set_hits p = some r.2) ∧
    (st.search_pattern = none → r.1.search_pattern = none) ∧
    (st.search_pattern = none → r.2 = new) := by
  simp only [FlameGraphState.handle_flamegraph_replacement,
    FlameGraphState.select_root, FlameGraphState.unset_zoom] at h
  by_cases hsel : st.selected = ROOT_ID
  case pos =>
    simp only [hsel, ne_eq, not_true_eq_false, reduceIte] at h
    cases hz : st.zoom with
    | none =>
      simp only [hz] at h
      cases hsp : st.search_pattern with
      | none =>
        simp only [hsp] at h
        injection h with he
        subst he
        refine ⟨?_, ?_, ?_, ?_, ?_, ?_, ?_, ?_, ?_, ?_⟩ <;> intros <;> simp_all
      | some p =>
        simp only [hsp] at h
        cases hsh : new.set_hits p with
        | none =>
          rw [hsh] at h
          cases h
        | some new1 =>
          rw [hsh] at h
          injection h with he
          subst he
          refine ⟨?_, ?_, ?_, ?_, ?_, ?_, ?_, ?_, ?_, ?_⟩ <;> intros <;> simp_all
    | some z =>
      simp only [hz] at h
      cases hzr : FlameGraphState.get_new_stack_id z.stack_id old new with
      | some zid =>
        simp only [hzr] at h
        cases hsp : st.search_pattern with
        | none =>
          simp only [hsp] at h
          injection h with he
          subst he
          refine ⟨?_, ?_, ?_, ?_, ?_, ?_, ?_, ?_, ?_, ?_⟩ <;> intros <;> simp_all
        | some p =>
          simp only [hsp] at h
          cases hsh : new.set_hits p with
          | none =>
            rw [hsh] at h
            cases h
          | some new1 =>
            rw [hsh] at h
            injection h with he
            subst he
            refine ⟨?_, ?_, ?_, ?_, ?_, ?_, ?_, ?_, ?_, ?_⟩ <;> intros <;>
              simp_all
      | none =>
        simp only [hzr] at h
        cases hsp : st.search_pattern with
        | none =>
          simp only [hsp] at h
          injection h with he
          subst he
          refine ⟨?_, ?_, ?_, ?_, ?_, ?_, ?_, ?_, ?_, ?_⟩ <;> intros <;> simp_all
        | some p =>
          simp only [hsp] at h
          cases hsh : new.set_hits p with
          | none =>
            rw [hsh] at h
            cases h
          | some new1 =>
            rw [hsh] at h
            injection h with he
            subst he
            refine ⟨?_, ?_, ?_, ?_, ?_, ?_, ?_, ?_, ?_, ?_⟩ <;> intros <;>
              simp_all
  case neg =>
    simp only [hsel, ne_eq, not_false_eq_true, reduceIte] at h
    cases hres : FlameGraphState.get_new_stack_id st.selected old new with
    | some nid0 =>
      simp only [hres] at h
      cases hz : st.zoom with
      | none =>
        simp only [hz] at h
        cases hsp : st.search_pattern with
        | none =>
          simp only [hsp] at h
          injection h with he
          subst he
          refine ⟨?_, ?_, ?_, ?_, ?_, ?_, ?_, ?_, ?_, ?_⟩ <;> intros <;> simp_all
        | some p =>
          simp only [hsp] at h
          cases hsh : new.set_hits p with
          | none =>
            rw [hsh] at h
            cases h
          | some new1 =>
            rw [hsh] at h
            injection h with he
            subst he
            refine ⟨?_, ?_, ?_, ?_, ?_, ?_, ?_, ?_, ?_, ?_⟩ <;> intros <;>
              simp_all
      | some z =>
        simp only [hz] at h
        cases hzr : FlameGraphState.get_new_stack_id z.stack_id old new with
        | some zid =>
          simp only [hzr] at h
          cases hsp : st.search_pattern with
          | none =>
            simp only [hsp] at h
            injection h with he
            subst he
            refine ⟨?_, ?_, ?_, ?_, ?_, ?_, ?_, ?_, ?_, ?_⟩ <;> intros <;>
              simp_all
          | some p =>
            simp only [hsp] at h
            cases hsh : new.set_hits p with
            | none =>
              rw [hsh] at h
              cases h
            | some new1 =>
              rw [hsh] at h
              injection h with he
              subst he
              refine ⟨?_, ?_, ?_, ?_, ?_, ?_, ?_, ?_, ?_, ?_⟩ <;> intros <;>
                simp_all
        | none =>
          simp only [hzr] at h
          cases hsp : st.search_pattern with
          | none =>
            simp only [hsp] at h
            injection h with he
            subst he
            refine ⟨?_, ?_, ?_, ?_, ?_, ?_, ?_, ?_, ?_, ?_⟩ <;> intros <;>
              simp_all
          | some p =>
            simp only [hsp] at h
            cases hsh : new.set_hits p with
            | none =>
              rw [hsh] at h
              cases h
            | some new1 =>
              rw [hsh] at h
              injection h with he
              subst he
              refine ⟨?_, ?_, ?_, ?_, ?_, ?_, ?_, ?_, ?_, ?_⟩ <;> intros <;>
                simp_all
    | none =>
      simp only [hres] at h
      cases hz : st.zoom with
      | none =>
        simp only [hz] at h
        cases hsp : st.search_pattern with
        | none =>
          simp only [hsp] at h
          injection h with he
          subst he
          refine ⟨?_, ?_, ?_, ?_, ?_, ?_, ?_, ?_, ?_, ?_⟩ <;> intros <;> simp_all
        | some p =>
          simp only [hsp] at h
          cases hsh : new.set_hits p with
          | none =>
            rw [hsh] at h
            cases h
          | some new1 =>
            rw [hsh] at h
            injection h with he
            subst he
            refine ⟨?_, ?_, ?_, ?_, ?_, ?_, ?_, ?_, ?_, ?_⟩ <;> intros <;>
              simp_all
      | some z =>
        simp only [hz] at h
        cases hzr : FlameGraphState.get_new_stack_id z.stack_id old new with
        | some zid =>
          simp only [hzr] at h
          cases hsp : st.search_pattern with
          | none =>
            simp only [hsp] at h
            injection h with he
            subst he
            refine ⟨?_, ?_, ?_, ?_, ?_, ?_, ?_, ?_, ?_, ?_⟩ <;> intros <;>
              simp_all
          | some p =>
            simp only [hsp] at h
            cases hsh : new.set_hits p with
            | none =>
              rw [hsh] at h
              cases h
            | some new1 =>
              rw [hsh] at h
              injection h with he
              subst he
              refine ⟨?_, ?_, ?_, ?_, ?_, ?_, ?_, ?_, ?_, ?_⟩ <;> intros <;>
                simp_all
        | none =>
          simp only [hzr] at h
          cases hsp : st.search_pattern with
          | none =>
            simp only [hsp] at h
            injection h with he
            subst he
            refine ⟨?_, ?_, ?_, ?_, ?_, ?_, ?_, ?_, ?_, ?_⟩ <;> intros <;>
              simp_all
          | some p =>
            simp only [hsp] at h
            cases hsh : new.set_hits p with
            | none =>
              rw [hsh] at h
              cases h
            | some new1 =>
              rw [hsh] at h
              injection h with he
              subst he
              refine ⟨?_, ?_, ?_, ?_, ?_, ?_, ?_, ?_, ?_, ?_⟩ <;> intros <;>
                simp_all

/-- `set_hits` only rewrites each stack's `hit` flag (and stores the hit
summary): the arena is the flag-marking map of the old one. -/
theorem set_hits_get? {fg fg' : FlameGraph} {p : SearchPattern}
    (h : fg.set_hits p = some fg') :
    fg'.data = fg.data ∧
    ∀ j, fg'.stacks'.get? j = (fg.stacks'.get? j).map
      (fun stack => { stack with
        hit := p.m (sliceCL fg.data stack.start_index stack.end_index) }) := by
  unfold FlameGraph.set_hits at h
  obtain ⟨cov, _, he⟩ := Option.map_eq_some'.mp h
  rw [← he]
  exact ⟨rfl, fun j => List.get?_map _ _ _⟩

/-- A stack found by full name sits at the index its `id` names. -/
theorem get_stack_of_full_name {fg : FlameGraph} {name : List Char}
    {s : StackInfo} (inv : ArenaInv fg.stacks')
    (h : fg.get_stack_by_full_name name = some s) :
    fg.get_stack s.id = some s := by
  unfold FlameGraph.get_stack_by_full_name at h
  have hmem : s ∈ fg.stacks' := List.mem_of_find?_eq_some h
  obtain ⟨n, hn⟩ := List.mem_iff_get?.mp hmem
  have hid : s.id = n := inv.idOk n s hn
  show fg.stacks'.get? s.id = some s
  rw [hid]
  exact hn

/-- A successful path resolution yields a stack stored at the returned
index of the new flamegraph. -/
theorem get_new_stack_id_resolves {sid : Nat} {old new : FlameGraph}
    {nid : Nat} (inv : ArenaInv new.stacks')
    (h : FlameGraphState.get_new_stack_id sid old new = some nid) :
    ∃ s, new.get_stack nid = some s ∧ s.id = nid := by
  unfold FlameGraphState.get_new_stack_id at h
  cases hg : old.get_stack sid with
  | none =>
    rw [hg] at h
    cases h
  | some stack =>
    rw [hg] at h
    simp only [Option.some_bind] at h
    obtain ⟨s, hs, hsid⟩ := Option.map_eq_some'.mp h
    have hres := get_stack_of_full_name inv hs
    rw [hsid] at hres
    exact ⟨s, hres, hsid⟩

/-- After `replace_flamegraph` on a well-formed new tree the zoom is
either cleared or fully recomputed (ancestors, descendants and
magnification) against the stored new flamegraph. -/
theorem replace_zoom_spec (v : FlameGraphView) (new : FlameGraph)
    (v' : FlameGraphView) (inv : ArenaInv new.stacks')
    (h : v.replace_flamegraph new = some v') :
    v'.state.zoom = none ∨
    ∃ z target root,
      v'.state.zoom = some z ∧ z.stack_id ≠ ROOT_ID ∧
      v'.flamegraph.get_stack z.stack_id = some target ∧
      v'.flamegraph.get_stack ROOT_ID = some root ∧
      z.ancestors = v'.flamegraph.get_ancestors z.stack_id ∧
      z.descendants = v'.flamegraph.get_descendants z.stack_id ∧
      z.zoom_factor = ⟨root.total_count, target.total_count⟩ := by
  unfold FlameGraphView.replace_flamegraph at h
  cases hh : v.state.handle_flamegraph_replacement v.flamegraph new with
  | none =>
    rw [hh] at h
    cases h
  | some r =>
    rw [hh] at h
    simp only [Option.some_bind] at h
    obtain ⟨_, _, _, hz0, hz5, hz6, _, hsp8, _, hsp10⟩ :=
      handle_replacement_cases _ _ _ _ hh
    -- the stored arena of the (possibly re-marked) new flamegraph
    obtain ⟨f, hf, hfid, hftot⟩ :
        ∃ f : StackInfo → StackInfo,
          (∀ j, r.2.stacks'.get? j = (new.stacks'.get? j).map f) ∧
          (∀ s, (f s).id = s.id) ∧ (∀ s, (f s).total_count = s.total_count) := by
      cases hsp : v.state.search_pattern with
      | none =>
        refine ⟨id, fun j => ?_, fun s => rfl, fun s => rfl⟩
        rw [hsp10 hsp]
        simp
      | some p =>
        obtain ⟨_, hmap⟩ := set_hits_get? (hsp8 p hsp)
        exact ⟨_, hmap, fun s => rfl, fun s => rfl⟩
    cases hz' : r.1.zoom with
    | none =>
      simp only [hz'] at h
      injection h with he
      rw [← he]
      exact Or.inl hz'
    | some zoom =>
      simp only [hz'] at h
      -- provenance of the remapped zoom target
      cases hvz : v.state.zoom with
      | none =>
        have := hz0 hvz
        rw [this] at hz'
        cases hz'
      | some z =>
        cases hres : FlameGraphState.get_new_stack_id z.stack_id
            v.flamegraph new with
        | none =>
          have := hz6 z hvz hres
          rw [this] at hz'
          cases hz'
        | some zid =>
          have hzz := hz5 z zid hvz hres
          rw [hzz] at hz'
          injection hz' with hze
          obtain ⟨s, hsget, hsid⟩ := get_new_stack_id_resolves inv hres
          have hzid : zoom.stack_id = zid := by rw [← hze]
          -- the target and the root in the stored arena
          have htget : r.2.stacks'.get? zid = some (f s) := by
            rw [hf zid]
            rw [show new.stacks'.get? zid = some s from hsget]
            rfl
          obtain ⟨rt, hrt⟩ : ∃ x, new.stacks'.get? 0 = some x :=
            ⟨new.stacks'.get ⟨0, inv.nonempty⟩, List.get?_eq_get inv.nonempty⟩
          have hrget : r.2.stacks'.get? 0 = some (f rt) := by
            rw [hf 0, hrt]
            rfl
          simp only [FlameGraphView.set_zoom_for_id, FlameGraph.get_stack,
            ROOT_ID, hzid, htget, hrget] at h
          by_cases hzr : zid = 0
          · rw [if_pos hzr] at h
            unfold FlameGraphView.unset_zoom at h
            simp only [hzz] at h
            obtain ⟨v2, _, he2⟩ := Option.map_eq_some'.mp h
            rw [← he2]
            exact Or.inl rfl
          · rw [if_neg hzr] at h
            injection h with he
            rw [← he]
            refine Or.inr ⟨_, f s, f rt, rfl, ?_, ?_, ?_, rfl, rfl, rfl⟩
            · simp only [ROOT_ID]
              exact hzr
            · exact htget
            · exact hrget

/-- After `replace_flamegraph`, a zoom whose path resolves to a non-root
node of a well-formed new tree is KEPT: the stored zoom targets the
resolved index and its ancestors, descendants and magnification are
recomputed against the new flamegraph. -/
theorem replace_zoom_remap_spec (v : FlameGraphView) (new : FlameGraph)
    (v' : FlameGraphView) (z : ZoomState) (zid : Nat)
    (inv : ArenaInv new.stacks')
    (h : v.replace_flamegraph new = some v')
    (hz : v.state.zoom = some z)
    (hres : FlameGraphState.get_new_stack_id z.stack_id v.flamegraph new =
      some zid)
    (hnr : zid ≠ ROOT_ID) :
    ∃ z' target root,
      v'.state.zoom = some z' ∧ z'.stack_id = zid ∧
      v'.flamegraph.get_stack zid = some target ∧
      v'.flamegraph.get_stack ROOT_ID = some root ∧
      z'.ancestors = v'.flamegraph.get_ancestors zid ∧
      z'.descendants = v'.flamegraph.get_descendants zid ∧
      z'.zoom_factor = ⟨root.total_count, target.total_count⟩ := by
  unfold FlameGraphView.replace_flamegraph at h
  cases hh : v.state.handle_flamegraph_replacement v.flamegraph new with
  | none =>
    rw [hh] at h
    cases h
  | some r =>
    rw [hh] at h
    simp only [Option.some_bind] at h
    obtain ⟨_, _, _, _, hz5, _, _, hsp8, _, hsp10⟩ :=
      handle_replacement_cases _ _ _ _ hh
    obtain ⟨f, hf, hfid, hftot⟩ :
        ∃ f : StackInfo → StackInfo,
          (∀ j, r.2.stacks'.get? j = (new.stacks'.get? j).map f) ∧
          (∀ s, (f s).id = s.id) ∧
          (∀ s, (f s).total_count = s.total_count) := by
      cases hsp : v.state.search_pattern with
      | none =>
        refine ⟨id, fun j => ?_, fun s => rfl, fun s => rfl⟩
        rw [hsp10 hsp]
        simp
      | some p =>
        obtain ⟨_, hmap⟩ := set_hits_get? (hsp8 p hsp)
        exact ⟨_, hmap, fun s => rfl, fun s => rfl⟩
    have hzz := hz5 z zid hz hres
    simp only [hzz] at h
    obtain ⟨s, hsget, hsid⟩ := get_new_stack_id_resolves inv hres
    have htget : r.2.stacks'.get? zid = some (f s) := by
      rw [hf zid]
      rw [show new.stacks'.get? zid = some s from hsget]
      rfl
    obtain ⟨rt, hrt⟩ : ∃ x, new.stacks'.get? 0 = some x :=
      ⟨new.stacks'.get ⟨0, inv.nonempty⟩, List.get?_eq_get inv.nonempty⟩
    have hrget : r.2.stacks'.get? 0 = some (f rt) := by
      rw [hf 0, hrt]
      rfl
    simp only [FlameGraphView.set_zoom_for_id, FlameGraph.get_stack,
      ROOT_ID, htget, hrget] at h
    rw [if_neg (by simpa [ROOT_ID] using hnr)] at h
    injection h with he
    rw [← he]
    exact ⟨_, f s, f rt, rfl, rfl, htget, hrget, rfl, rfl, rfl⟩

/-- After `replace_flamegraph`, a zoom whose path resolves to the ROOT of
a well-formed new tree is cleared (the corner the original claim
missed). -/
theorem replace_zoom_root_clears (v : FlameGraphView) (new : FlameGraph)
    (v' : FlameGraphView) (z : ZoomState)
    (inv : ArenaInv new.stacks')
    (h : v.replace_flamegraph new = some v')
    (hz : v.state.zoom = some z)
    (hres : FlameGraphState.get_new_stack_id z.stack_id v.flamegraph new =
      some ROOT_ID) :
    v'.state.zoom = none := by
  unfold FlameGraphView.replace_flamegraph at h
  cases hh : v.state.handle_flamegraph_replacement v.flamegraph new with
  | none =>
    rw [hh] at h
    cases h
  | some r =>
    rw [hh] at h
    simp only [Option.some_bind] at h
    obtain ⟨_, _, _, _, hz5, _, _, hsp8, _, hsp10⟩ :=
      handle_replacement_cases _ _ _ _ hh
    obtain ⟨f, hf, hfid, hftot⟩ :
        ∃ f : StackInfo → StackInfo,
          (∀ j, r.2.stacks'.get? j = (new.stacks'.get? j).map f) ∧
          (∀ s, (f s).id = s.id) ∧
          (∀ s, (f s).total_count = s.total_count) := by
      cases hsp : v.state.search_pattern with
      | none =>
        refine ⟨id, fun j => ?_, fun s => rfl, fun s => rfl⟩
        rw [hsp10 hsp]
        simp
      | some p =>
        obtain ⟨_, hmap⟩ := set_hits_get? (hsp8 p hsp)
        exact ⟨_, hmap, fun s => rfl, fun s => rfl⟩
    have hzz := hz5 z ROOT_ID hz hres
    simp only [hzz] at h
    obtain ⟨s, hsget, hsid⟩ := get_new_stack_id_resolves inv hres
    have htget : r.2.stacks'.get? 0 = some (f s) := by
      rw [hf 0]
      rw [show new.stacks'.get? 0 = some s from hsget]
      rfl
    simp only [FlameGraphView.set_zoom_for_id, FlameGraph.get_stack,
      ROOT_ID, htget] at h
    unfold FlameGraphView.unset_zoom at h
    simp only [hzz] at h
    obtain ⟨v2, _, he2⟩ := Option.map_eq_some'.mp h
    rw [← he2]
    rfl

/-- Turns a decidable scan over the concrete line list into the
`PosCounts` hypothesis. -/
theorem posCounts_of_all {lines : List (Nat × List Char)}
    (h : lines.all (fun pl =>
      match parseLine pl.2 with
      | some pc => decide (pl.2.head? = some '#') || decide (1 ≤ pc.2)
      | none => true) = true) : PosCounts lines := by
  intro pl hpl path c hparse hhash
  have hb := List.all_eq_true.mp h pl hpl
  rw [hparse] at hb
  simp only [Bool.or_eq_true, decide_eq_true_eq] at hb
  rcases hb with hh | hc
  · exact absurd hh hhash
  · exact hc

/-! ### Claim C1 -/

/-- C1: for every input and sorted flag `from_string` returns a tree in
which every node's total count is its self count plus the sum of its
children's total counts, and the root's total count is the sum of the
accepted lines' COUNT values. -/
theorem c1_count_conservation (content0 : List Char) (sorted : Bool) :
    ∃ fg, FlameGraph.from_string content0 sorted = some fg ∧
      (∀ i info, fg.stacks'.get? i = some info →
        info.total_count = info.self_count +
          childTotalSum fg.stacks' info.children) ∧
      ∃ rinfo, fg.stacks'.get? 0 = some rinfo ∧
        rinfo.total_count =
          acceptedSum (lineChunks (FlameGraph.normalizeNL content0)) := by
  obtain ⟨fg, hrun, hdata, _, _, _, hbal, _, ⟨rinfo, hr0, hrt, _⟩, _, _⟩ :=
    from_string_spec content0 sorted
  exact ⟨fg, hrun, hbal, rinfo, hr0, by rw [hrt, hdata]⟩

/-! ### Claim C3 -/

/-- C3: `from_string` is total (never panics); a line that does not parse
as `<path> <uint>` on the last space, or that starts with `'#'`, is
skipped and contributes nothing; and a missing trailing newline is
tolerated (the code appends one, so the results coincide exactly). -/
theorem c3_malformed_skipped :
    (∀ (content0 : List Char) (sorted : Bool),
      ∃ fg, FlameGraph.from_string content0 sorted = some fg) ∧
    (∀ (content : List Char) (l1 l2 : List (Nat × List Char)) (pos : Nat)
      (bad : List Char) (arena : List StackInfo),
      parseLine bad = none ∨ bad.head? = some '#' →
      FlameGraph.processLines content (l1 ++ (pos, bad) :: l2) arena =
        FlameGraph.processLines content (l1 ++ l2) arena) ∧
    (∀ (content0 : List Char) (sorted : Bool),
      content0.getLast? ≠ some '\n' →
      FlameGraph.from_string (content0 ++ ['\n']) sorted =
        FlameGraph.from_string content0 sorted) := by
  refine ⟨?_, processLines_skip_insert, ?_⟩
  · intro content0 sorted
    obtain ⟨fg, hrun, _⟩ := from_string_spec content0 sorted
    exact ⟨fg, hrun⟩
  · intro content0 sorted hne
    have hnorm : FlameGraph.normalizeNL (content0 ++ ['\n']) =
        FlameGraph.normalizeNL content0 := by
      unfold FlameGraph.normalizeNL
      rw [if_pos (by simp), if_neg hne]
    simp only [FlameGraph.from_string, FlameGraph.from_string_stacks, hnorm]

/-! ### Claim C4 (amended) -/

/-- C4 (amended): the root's width factor is exactly 1; every non-root
node's width factor is its parent's width factor times its total count
over the parent's total count (exact `f64` value semantics); and when
every accepted line has a positive COUNT, every width factor lies in
`(0, 1]`.  (Without positivity a zero-count node gets width factor 0, see
the counterexample.) -/
theorem c4_width_factor (content0 : List Char) (sorted : Bool)
    (fg : FlameGraph)
    (h : FlameGraph.from_string content0 sorted = some fg) :
    (∃ rinfo, fg.stacks'.get? 0 = some rinfo ∧
      rinfo.width_factor = ⟨1, 1⟩ ∧ rinfo.width_factor.toRat = 1) ∧
    (∀ j info, fg.stacks'.get? j = some info → j ≠ 0 →
      ∃ p pinfo, info.parent = some p ∧ fg.stacks'.get? p = some pinfo ∧
        info.width_factor = ⟨pinfo.width_factor.num * info.total_count,
          pinfo.width_factor.den * pinfo.total_count⟩) ∧
    (PosCounts (lineChunks fg.data) →
      ∀ j info, fg.stacks'.get? j = some info →
        0 < info.width_factor.toRat ∧ info.width_factor.toRat ≤ 1) := by
  obtain ⟨fg', hrun, _, _, _, hinv, hbal, _,
    ⟨rinfo, hr0, _, _, _, _, _, hrwf⟩, hrec, hpos⟩ :=
    from_string_spec content0 sorted
  rw [h] at hrun
  injection hrun with he
  subst he
  refine ⟨⟨rinfo, hr0, hrwf, by rw [hrwf]; norm_num [Frac.toRat]⟩, hrec, ?_⟩
  intro hpc j info hg
  have hb := wf_bounds hinv ⟨rinfo, hr0, hrwf⟩ hrec hbal (hpos hpc) j info hg
  exact frac_toRat_bounds hb.1 hb.2.1 hb.2.2

/-! ### Claim C5 (amended) -/

/-- C5 (amended): with the sorted flag, every node's children list is the
REVERSE of the stable ascending sort by total count of its insertion-order
(parse-time) children; ties therefore come out in reversed, not
preserved, relative order (see the counterexample). -/
theorem c5_sorted_children (content0 : List Char) (fg : FlameGraph)
    (h : FlameGraph.from_string content0 true = some fg) :
    ∃ arenaPre,
      FlameGraph.from_string_stacks content0 = some (fg.data, arenaPre) ∧
      ∀ j info info', arenaPre.get? j = some info →
        fg.stacks'.get? j = some info' →
        info'.children =
          (FlameGraph.sortByKeyAsc (FlameGraph.keyTotal fg.stacks')
            info.children).reverse := by
  obtain ⟨fg', hrun, _, _, _, _, _,
    ⟨arenaPre, hpre, hrel, hch⟩, _, _, _⟩ := from_string_spec content0 true
  rw [h] at hrun
  injection hrun with he
  subst he
  refine ⟨arenaPre, hpre, fun j info info' hj hj' => ?_⟩
  rw [hch j info info' hj hj']
  unfold FlameGraph.sortIf
  rw [if_pos rfl]
  congr 1
  exact (sortByKeyAsc_congr (fun c _ =>
    keyTotal_congr (hrel.totalsMap c))).symm

/-! ### Claim C6 (amended) -/

/-- C6 (amended): after `set_hits` a node's hit flag is exactly the
matcher's verdict on `data[start_index..end_index]`; for a non-root node
that slice is its short name, but the root is matched against
`data[0..0]`, the empty string, not its sentinel short name `"all"` (see
the counterexample). -/
theorem c6_set_hits (content0 : List Char) (sorted : Bool)
    (fg fg' : FlameGraph) (p : SearchPattern)
    (hfs : FlameGraph.from_string content0 sorted = some fg)
    (h : fg.set_hits p = some fg') :
    (∀ j info info', fg.stacks'.get? j = some info →
      fg'.stacks'.get? j = some info' →
      info'.hit = p.m (sliceCL fg.data info.start_index info.end_index)) ∧
    (∀ j info, fg.stacks'.get? j = some info → info.id ≠ ROOT_ID →
      sliceCL fg.data info.start_index info.end_index =
        fg.get_stack_short_name_from_info info) ∧
    (∀ rinfo, fg.stacks'.get? 0 = some rinfo →
      sliceCL fg.data rinfo.start_index rinfo.end_index = [] ∧
      fg.get_stack_short_name_from_info rinfo = ROOT) := by
  obtain ⟨_, hmap⟩ := set_hits_get? h
  obtain ⟨fg2, hrun, _, _, _, hinv, _, _,
    ⟨rinfo2, hr0, _, _, _, hrstart, hrend, _⟩, _, _⟩ :=
    from_string_spec content0 sorted
  rw [hfs] at hrun
  injection hrun with he
  subst he
  refine ⟨?_, ?_, ?_⟩
  · intro j info info' hj hj'
    rw [hmap j, hj] at hj'
    injection hj' with he2
    rw [← he2]
  · intro j info _ hid
    unfold FlameGraph.get_stack_short_name_from_info
    rw [if_neg hid]
  · intro rinfo hr
    rw [hr0] at hr
    injection hr with he2
    subst he2
    constructor
    · rw [hrstart, hrend]
      rfl
    · unfold FlameGraph.get_stack_short_name_from_info
      have hid : rinfo2.id = ROOT_ID := by
        rw [hinv.idOk 0 rinfo2 hr0]
        rfl
      rw [if_pos hid]

/-! ### Claim C7 -/

/-- C7: the coverage stored by `set_hits` is `_count_hit_coverage` from
the root; on any well-formed arena with any flag assignment that
traversal gives a hit node its full total count without descending
further and a non-hit node the sum over its children; in particular a
root-only hit covers the root total, and a hit node plus one hit
descendant cover exactly the node's own total. -/
theorem c7_hit_coverage (arena : List StackInfo) (inv : ArenaInv arena) :
    (∀ (fg fg' : FlameGraph) (p : SearchPattern), fg.set_hits p = some fg' →
      fg'.hit_coverage_count = FlameGraph.countHitCoverage fg'.stacks'
        (fg'.stacks'.length + 1) ROOT_ID) ∧
    (∀ i info fuel, arena.get? i = some info → info.hit = true →
      FlameGraph.countHitCoverage arena (fuel + 1) i =
        some info.total_count) ∧
    (∀ fuel i info (g : Nat → Nat), arena.get? i = some info →
      info.hit = false →
      (∀ c ∈ info.children,
        FlameGraph.countHitCoverage arena fuel c = some (g c)) →
      FlameGraph.countHitCoverage arena (fuel + 1) i =
        some ((info.children.map g).sum)) ∧
    (∀ rinfo, arena.get? 0 = some rinfo →
      (∀ j jinfo, arena.get? j = some jinfo → (jinfo.hit = true ↔ j = 0)) →
      FlameGraph.countHitCoverage arena (arena.length + 1) 0 =
        some rinfo.total_count) ∧
    (∀ n d ninfo, arena.get? n = some ninfo → Reach arena n d →
      (∀ j jinfo, arena.get? j = some jinfo →
        (jinfo.hit = true ↔ (j = n ∨ j = d))) →
      FlameGraph.countHitCoverage arena (arena.length + 1) 0 =
        some ninfo.total_count) := by
  refine ⟨?_, ?_, ?_, ?_, ?_⟩
  · intro fg fg' p h
    unfold FlameGraph.set_hits at h
    obtain ⟨cov, hcov, he⟩ := Option.map_eq_some'.mp h
    rw [← he]
    simp only [FlameGraph.hit_coverage_count, Option.map_some']
    exact hcov.symm
  · intro i info fuel hg hhit
    simp only [FlameGraph.countHitCoverage, hg, hhit, if_true]
  · intro fuel i info g hg hhit hkids
    simp only [FlameGraph.countHitCoverage, hg, hhit, Bool.false_eq_true,
      if_false]
    rw [ccov_fold hkids 0]
    simp
  · intro rinfo hg hiff
    have hhit : rinfo.hit = true := (hiff 0 rinfo hg).mpr rfl
    exact ccov_hit_unique inv (arena.length + 1) 0 0 rinfo inv.nonempty
      (by omega) (Reach.refl 0) hg hhit
      (fun j jinfo hj hjt => by
        rw [(hiff j jinfo hj).mp hjt]
        exact Reach.refl 0)
  · intro n d ninfo hg hnd hiff
    have hhit : ninfo.hit = true := (hiff n ninfo hg).mpr (Or.inl rfl)
    have hnl : n < arena.length := (List.get?_eq_some.mp hg).1
    exact ccov_hit_unique inv (arena.length + 1) 0 n ninfo inv.nonempty
      (by omega) (Reach.from_root inv n hnl) hg hhit
      (fun j jinfo hj hjt => by
        rcases (hiff j jinfo hj).mp hjt with he | he
        · rw [he]
          exact Reach.refl n
        · rw [he]
          exact hnd)

/-! ### Claim C2 (amended) -/

/-- C2 (amended): `handle_flamegraph_replacement` remaps the selection by
full path (falling back to the root when the path is absent), remaps the
zoom target when its path resolves and clears the zoom when it is
absent, and re-applies an active search pattern to the new tree;
`replace_flamegraph` then KEEPS a zoom remapped to a non-root node,
recomputing its ancestors, descendants and magnification against the new
tree, while a zoom remapped to the root is cleared instead (the corner
the original claim missed, see the counterexample). -/
theorem c2_replacement_remap :
    (∀ (st : FlameGraphState) (old new : FlameGraph)
      (r : FlameGraphState × FlameGraph),
      st.handle_flamegraph_replacement old new = some r →
      (st.selected = ROOT_ID → r.1.selected = ROOT_ID) ∧
      (∀ nid, st.selected ≠ ROOT_ID →
        FlameGraphState.get_new_stack_id st.selected old new = some nid →
        r.1.selected = nid) ∧
      (st.selected ≠ ROOT_ID →
        FlameGraphState.get_new_stack_id st.selected old new = none →
        r.1.selected = ROOT_ID) ∧
      (∀ z zid, st.zoom = some z →
        FlameGraphState.get_new_stack_id z.stack_id old new = some zid →
        r.1.zoom = some { z with stack_id := zid }) ∧
      (∀ z, st.zoom = some z →
        FlameGraphState.get_new_stack_id z.stack_id old new = none →
        r.1.zoom = none) ∧
      (∀ p, st.search_pattern = some p →
        r.1.search_pattern = some p ∧ new.set_hits p = some r.2)) ∧
    (∀ (v : FlameGraphView) (new : FlameGraph) (v' : FlameGraphView),
      ArenaInv new.stacks' → v.replace_flamegraph new = some v' →
      v'.state.zoom = none ∨
      ∃ z target root,
        v'.state.zoom = some z ∧ z.stack_id ≠ ROOT_ID ∧
        v'.flamegraph.get_stack z.stack_id = some target ∧
        v'.flamegraph.get_stack ROOT_ID = some root ∧
        z.ancestors = v'.flamegraph.get_ancestors z.stack_id ∧
        z.descendants = v'.flamegraph.get_descendants z.stack_id ∧
        z.zoom_factor = ⟨root.total_count, target.total_count⟩) ∧
    (∀ (v : FlameGraphView) (new : FlameGraph) (v' : FlameGraphView)
      (z : ZoomState) (zid : Nat),
      ArenaInv new.stacks' → v.replace_flamegraph new = some v' →
      v.state.zoom = some z →
      FlameGraphState.get_new_stack_id z.stack_id v.flamegraph new =
        some zid →
      zid ≠ ROOT_ID →
      ∃ z' target root,
        v'.state.zoom = some z' ∧ z'.stack_id = zid ∧
        v'.flamegraph.get_stack zid = some target ∧
        v'.flamegraph.get_stack ROOT_ID = some root ∧
        z'.ancestors = v'.flamegraph.get_ancestors zid ∧
        z'.descendants = v'.flamegraph.get_descendants zid ∧
        z'.zoom_factor = ⟨root.total_count, target.total_count⟩) ∧
    (∀ (v : FlameGraphView) (new : FlameGraph) (v' : FlameGraphView)
      (z : ZoomState),
      ArenaInv new.stacks' → v.replace_flamegraph new = some v' →
      v.state.zoom = some z →
      FlameGraphState.get_new_stack_id z.stack_id v.flamegraph new =
        some ROOT_ID →
      v'.state.zoom = none) := by
  refine ⟨?_, ?_, ?_, ?_⟩
  · intro st old new r h
    obtain ⟨h1, h2, h3, _, h5, h6, h7, h8, _, _⟩ :=
      handle_replacement_cases st old new r h
    exact ⟨h1, h2, h3, h5, h6, fun p hp => ⟨h7 p hp, h8 p hp⟩⟩
  · intro v new v' hinv h
    exact replace_zoom_spec v new v' hinv h
  · intro v new v' z zid hinv h hz hres hnr
    exact replace_zoom_remap_spec v new v' z zid hinv h hz hres hnr
  · intro v new v' z hinv h hz hres
    exact replace_zoom_root_clears v new v' z hinv h hz hres

/-! ### Witnesses -/

/-- Witness for C3: a `'#'` comment line is dropped exactly, and the
missing trailing newline makes no difference on a concrete input. -/
theorem c3_malformed_skipped_witness :
    FlameGraph.processLines (cl "a 1\n") ([] ++ (0, cl "#x 1") :: [])
        [FlameGraph.rootInfo] =
      FlameGraph.processLines (cl "a 1\n") ([] ++ [])
        [FlameGraph.rootInfo] ∧
    FlameGraph.from_string (cl "a 1" ++ ['\n']) false =
      FlameGraph.from_string (cl "a 1") false :=
  ⟨c3_malformed_skipped.2.1 (cl "a 1\n") [] [] 0 (cl "#x 1")
      [FlameGraph.rootInfo] (Or.inr (by decide)),
   c3_malformed_skipped.2.2 (cl "a 1") false (by decide)⟩

/-- Witness for C4 on the spec §8 example: the root width factor is in
`(0, 1]`. -/
theorem c4_width_factor_witness :
    0 < rootW.width_factor.toRat ∧ rootW.width_factor.toRat ≤ 1 :=
  (c4_width_factor (cl "a;b 3\na;c 5\na 2") false fgW rfl).2.2
    (posCounts_of_all (by decide)) 0 rootW rfl

/-- Witness for C5 on `"a 1\nb 1"`: the root's children end up as the
reversed stable ascending sort of the parse-time children. -/
theorem c5_sorted_children_witness :
    rootT.children = (FlameGraph.sortByKeyAsc
      (FlameGraph.keyTotal fgT.stacks') rootPreT.children).reverse := by
  obtain ⟨arenaPre, heq, hch⟩ := c5_sorted_children (cl "a 1\nb 1") fgT rfl
  have h3 : some (fgT.data, arenaPreT) = some (fgT.data, arenaPre) :=
    (rfl : FlameGraph.from_string_stacks (cl "a 1\nb 1") =
      some (fgT.data, arenaPreT)).symm.trans heq
  injection h3 with h4
  have h5 : arenaPreT = arenaPre := congrArg Prod.snd h4
  exact hch 0 rootPreT rootT (by rw [← h5]; rfl) rfl

/-- Witness for C6 on `"a 1"` with the pattern `"all"`: the root's slice
is empty even though its sentinel short name is `"all"`. -/
theorem c6_set_hits_witness :
    sliceCL fgA.data rootA.start_index rootA.end_index = [] ∧
      fgA.get_stack_short_name_from_info rootA = ROOT :=
  (c6_set_hits (cl "a 1") true fgA fgA2 pAll rfl rfl).2.2 rootA rfl

/-- Witness for C7: on the spec §8 example arena with only the root
flagged, the coverage is the root total. -/
theorem c7_hit_coverage_witness :
    FlameGraph.countHitCoverage c7arena (c7arena.length + 1) 0 =
      some c7root.total_count :=
  (c7_hit_coverage c7arena (arenaInvB_sound (by decide))).2.2.2.1 c7root rfl
    (forall_get?_of_all (by decide))

/-- Witness for C2 on concrete replacements: the root selection is
preserved, a zoom on node 1 of the spec §8 example remaps to node 1 of
the new tree (kept, with recomputed sets and magnification), and the
`"all"`-named corner from the counterexample clears the zoom. -/
theorem c2_replacement_remap_witness :
    rW.1.selected = ROOT_ID ∧
    rZ.1.zoom = some { zZ with stack_id := 1 } ∧
    (∃ z' target root,
      vZ2.state.zoom = some z' ∧ z'.stack_id = 1 ∧
      vZ2.flamegraph.get_stack 1 = some target ∧
      vZ2.flamegraph.get_stack ROOT_ID = some root ∧
      z'.ancestors = vZ2.flamegraph.get_ancestors 1 ∧
      z'.descendants = vZ2.flamegraph.get_descendants 1 ∧
      z'.zoom_factor = ⟨root.total_count, target.total_count⟩) ∧
    vC2.state.zoom = none :=
  ⟨(c2_replacement_remap.1 stW fgW fgW rW rfl).1 rfl,
   (c2_replacement_remap.1 vZ.state fgW fgW rZ rfl).2.2.2.1 zZ 1 rfl rfl,
   c2_replacement_remap.2.2.1 vZ fgW vZ2 zZ 1 (arenaInvB_sound (by decide))
     rfl rfl rfl (by decide),
   c2_replacement_remap.2.2.2 vC fgC vC2 zC (arenaInvB_sound (by decide))
     rfl rfl rfl⟩
